import Mathlib

/-!
Verification development for the scrabble-solver board engine.

This file contains a shallow embedding of `src/board/board.py` and the
orchestrator in `src/main.py`: the sparse board state (a Python
`defaultdict` from positions to tiles), tile/word construction, word
placement, intersecting-word computation, the recursive pattern
generator, and the whole-board search.  Theorems about these
definitions settle the specification's claims.
-/

set_option maxRecDepth 10000

abbrev Pos := Int × Int

/-- A placed letter at a coordinate (`BoardTile` in board.py). -/
structure BoardTile where
  pos : Pos
  letter : Char
deriving DecidableEq

/-- The two axis directions (the `ACROSS`/`DOWN` singletons in board.py). -/
inductive Dir where
  | across
  | down
deriving DecidableEq

/-- The unit step of an axis. -/
def Dir.step : Dir → Pos
  | .across => (1, 0)
  | .down => (0, 1)

/-- `direction.orthogonal()`. -/
def Dir.orthogonal : Dir → Dir
  | .across => .down
  | .down => .across

/-- `direction.opposite()`. -/
def Dir.oppStep (d : Dir) : Pos := (-(Dir.step d).1, -(Dir.step d).2)

/-- The board dictionary: Python's `defaultdict(none)` mapping positions to
tiles.  A key may be present with value `none`: a defaultdict read on a
missing key inserts the default value `None`. -/
abbrev Board := List (Pos × Option BoardTile)

/-- Dictionary lookup: `some v` when the key is present (with `v` the stored
value, itself possibly `none`), `none` when the key is absent. -/
def lookupKey : Board → Pos → Option (Option BoardTile)
  | [], _ => none
  | e :: rest, p => if p = e.1 then some e.2 else lookupKey rest p

/-- Python `pos in dict`: key membership. -/
def hasKey (b : Board) (p : Pos) : Bool := (lookupKey b p).isSome

/-- Python `dict[p] = v`: replace the value when the key is present,
otherwise add the binding. -/
def setKey : Board → Pos → Option BoardTile → Board
  | [], p, v => [(p, v)]
  | e :: rest, p, v => if p = e.1 then (e.1, v) :: rest else e :: setKey rest p v

/-- Python `del dict[p]`: `none` models the `KeyError` raised on an absent
key. -/
def delKey : Board → Pos → Option Board
  | [], _ => none
  | e :: rest, p => if p = e.1 then some rest else (delKey rest p).map (fun b => e :: b)

/-- The state of the board (`BoardState` in board.py). -/
structure BoardState where
  height : Nat
  width : Nat
  board : Board
deriving DecidableEq

/-- `BoardState.__init__(self, h, w)`: dimensions plus an empty dictionary. -/
def BoardState.init (h w : Nat) : BoardState := ⟨h, w, []⟩

/-- `BoardState.__contains__`: the containment test with inclusive upper
bounds. -/
def BoardState.contains (bs : BoardState) (p : Pos) : Bool :=
  decide (0 ≤ p.1) && decide (p.1 ≤ (bs.width : Int)) &&
    decide (0 ≤ p.2) && decide (p.2 ≤ (bs.height : Int))

/-- `BoardState.get_tile`: reads `self.board[tile]`.  On a `defaultdict`,
reading a missing key inserts the default value `None`, so the read returns
the stored value together with the possibly mutated state. -/
def BoardState.get_tile (bs : BoardState) (p : Pos) : Option BoardTile × BoardState :=
  match lookupKey bs.board p with
  | some v => (v, bs)
  | none => (none, { bs with board := setKey bs.board p none })

/-- `BoardState.manually_delete_tile`: `del self.board[pos]`. -/
def BoardState.manually_delete_tile (bs : BoardState) (p : Pos) : Except String BoardState :=
  match delKey bs.board p with
  | some b => .ok { bs with board := b }
  | none => .error "KeyError"

/-- `BoardState.manually_put_tile`: bounds-checks the position, then stores
the tile under its own position. -/
def BoardState.manually_put_tile (bs : BoardState) (t : BoardTile) : Except String BoardState :=
  if bs.contains t.pos then .ok { bs with board := setKey bs.board t.pos (some t) }
  else .error "invalid tile position"

/-- The failures `put_word` can raise.  `attrError` stands for the Python
`AttributeError` hit when a stored value is `None` (only possible after a
defaultdict read inserted one). -/
inductive PutErr where
  | attrError
  | letterMismatch (existing newTile : BoardTile)
  | invalidPos (t : BoardTile)
deriving DecidableEq

/-- `BoardState.put_word`: processes the tiles in order, mutating the board
in place; the returned state is the board after the last successful step
(there is no rollback on failure). -/
def BoardState.put_word : BoardState → List BoardTile → BoardState × Option PutErr
  | bs, [] => (bs, none)
  | bs, t :: rest =>
    match lookupKey bs.board t.pos with
    | some (some ex) =>
      if t.letter ≠ ex.letter then (bs, some (.letterMismatch ex t))
      else BoardState.put_word bs rest
    | some none => (bs, some .attrError)
    | none =>
      match bs.manually_put_tile t with
      | .ok bs2 => BoardState.put_word bs2 rest
      | .error _ => (bs, some (.invalidPos t))

/-- A stored entry is well formed when its value is a tile whose own position
is the dictionary key. -/
def entryOK (e : Pos × Option BoardTile) : Bool :=
  match e.2 with
  | some t => decide (t.pos = e.1)
  | none => false

/-- A board is well formed when its keys are distinct and every entry is well
formed (in particular no defaultdict read has inserted a `None` value). -/
def WF (bs : BoardState) : Prop :=
  bs.board.Pairwise (fun a b => a.1 ≠ b.1) ∧ ∀ e ∈ bs.board, entryOK e = true

/-! ### Basic dictionary lemmas -/

theorem lookupKey_mem {b : Board} {p : Pos} {v : Option BoardTile}
    (h : lookupKey b p = some v) : (p, v) ∈ b := by
  induction b with
  | nil => simp [lookupKey] at h
  | cons e rest ih =>
    by_cases hp : p = e.1
    · simp only [lookupKey, hp, if_pos rfl] at h
      obtain rfl : e.2 = v := by injection h
      have hev : (p, e.2) = e := Prod.ext hp rfl
      rw [hev]
      exact List.mem_cons_self e rest
    · simp only [lookupKey, if_neg hp] at h
      exact List.mem_cons_of_mem _ (ih h)

theorem lookupKey_setKey_self (b : Board) (p : Pos) (v : Option BoardTile) :
    lookupKey (setKey b p v) p = some v := by
  induction b with
  | nil => simp [setKey, lookupKey]
  | cons e rest ih =>
    by_cases hp : p = e.1
    · simp [setKey, lookupKey, if_pos hp, hp]
    · simp [setKey, lookupKey, if_neg hp, ih]

theorem lookupKey_setKey_ne (b : Board) (p q : Pos) (v : Option BoardTile)
    (h : q ≠ p) : lookupKey (setKey b p v) q = lookupKey b q := by
  induction b with
  | nil => simp [setKey, lookupKey, h]
  | cons e rest ih =>
    by_cases hp : p = e.1
    · subst hp
      simp [setKey, lookupKey, h]
    · by_cases hq : q = e.1
      · simp [setKey, lookupKey, if_neg hp, hq]
      · simp [setKey, lookupKey, if_neg hp, if_neg hq, ih]

theorem delKey_none_iff (b : Board) (p : Pos) :
    delKey b p = none ↔ lookupKey b p = none := by
  induction b with
  | nil => simp [delKey, lookupKey]
  | cons e rest ih =>
    by_cases hp : p = e.1
    · simp [delKey, lookupKey, hp]
    · simp only [delKey, lookupKey, if_neg hp]
      constructor
      · intro h
        rcases hdel : delKey rest p with _ | b'
        · exact ih.mp hdel
        · rw [hdel] at h
          simp [Option.map] at h
      · intro h
        rw [ih.mpr h]
        rfl

/-! ### Claim C8: the containment test -/

/-- C8: for a board constructed with height H and width W, the containment
test accepts (x, y) iff 0 ≤ x ≤ W and 0 ≤ y ≤ H, upper bounds inclusive. -/
theorem claim_C8 (H W : Nat) (x y : Int) :
    (BoardState.init H W).contains (x, y) = true ↔
      (0 ≤ x ∧ x ≤ (W : Int) ∧ 0 ≤ y ∧ y ≤ (H : Int)) := by
  simp [BoardState.init, BoardState.contains, and_assoc]

/-! ### Claim C6: manually_delete_tile -/

theorem lookupKey_none_of_keys {b : Board} {p : Pos}
    (h : ∀ e ∈ b, p ≠ e.1) : lookupKey b p = none := by
  induction b with
  | nil => rfl
  | cons e rest ih =>
    have hne : p ≠ e.1 := h e (List.mem_cons_self e rest)
    simp only [lookupKey, if_neg hne]
    exact ih (fun e' he' => h e' (List.mem_cons_of_mem _ he'))

theorem lookupKey_keys_of_none {b : Board} {p : Pos}
    (h : lookupKey b p = none) : ∀ e ∈ b, p ≠ e.1 := by
  induction b with
  | nil => intro e he; simp at he
  | cons e rest ih =>
    intro e' he'
    by_cases hp : p = e.1
    · simp [lookupKey, hp] at h
    · simp only [lookupKey, if_neg hp] at h
      rcases List.mem_cons.mp he' with rfl | hmem
      · exact hp
      · exact ih h e' hmem

theorem delKey_lookup {b : Board} {p : Pos} {v : Option BoardTile}
    (hnd : b.Pairwise (fun a b => a.1 ≠ b.1))
    (h : lookupKey b p = some v) :
    ∃ b2, delKey b p = some b2 ∧ lookupKey b2 p = none ∧
      ∀ q, q ≠ p → lookupKey b2 q = lookupKey b q := by
  induction b with
  | nil => simp [lookupKey] at h
  | cons e rest ih =>
    rcases List.pairwise_cons.mp hnd with ⟨hhead, htail⟩
    by_cases hp : p = e.1
    · refine ⟨rest, by simp [delKey, hp], ?_, ?_⟩
      · exact lookupKey_none_of_keys (fun e' he' => by
          rw [hp]; exact hhead e' he')
      · intro q hq
        simp [lookupKey, if_neg (hp ▸ hq)]
    · simp only [lookupKey, if_neg hp] at h
      obtain ⟨b2, hdel, hnone, hother⟩ := ih htail h
      refine ⟨e :: b2, ?_, ?_, ?_⟩
      · simp [delKey, if_neg hp, hdel]
      · simp [lookupKey, if_neg hp, hnone]
      · intro q hq
        by_cases hqe : q = e.1
        · simp [lookupKey, hqe]
        · simp [lookupKey, if_neg hqe, hother q hq]

/-- C6 (amended): on a well-formed board, `manually_delete_tile` fails with
`KeyError` when no tile is present at `p`; when a tile is present it removes
exactly that one entry, leaving every other position and the dimensions
unchanged. -/
theorem claim_C6 (bs : BoardState) (p : Pos) (hwf : WF bs) :
    (lookupKey bs.board p = none →
        bs.manually_delete_tile p = Except.error "KeyError") ∧
    (∀ v, lookupKey bs.board p = some v →
        ∃ bs2, bs.manually_delete_tile p = Except.ok bs2 ∧
          bs2.height = bs.height ∧ bs2.width = bs.width ∧
          lookupKey bs2.board p = none ∧
          ∀ q, q ≠ p → lookupKey bs2.board q = lookupKey bs.board q) := by
  constructor
  · intro hnone
    have : delKey bs.board p = none := (delKey_none_iff bs.board p).mpr hnone
    simp [BoardState.manually_delete_tile, this]
  · intro v hv
    obtain ⟨b2, hdel, hnone, hother⟩ := delKey_lookup hwf.1 hv
    exact ⟨{ bs with board := b2 }, by simp [BoardState.manually_delete_tile, hdel],
      rfl, rfl, hnone, hother⟩

/-- C6 counterexample: deleting at an empty cell does not succeed as a no-op;
it raises `KeyError` (the caller `tileWasCleared` catches it). -/
theorem claim_C6_counterexample :
    BoardState.manually_delete_tile (BoardState.init 15 15) (0, 0) =
      Except.error "KeyError" := by rfl

/-- Witness board for claim C6. -/
def bsDel : BoardState := ⟨2, 2, [((0, 0), some ⟨(0, 0), 'a'⟩)]⟩

theorem claim_C6_witness :
    WF bsDel ∧
    ((lookupKey bsDel.board (0, 0) = none →
        bsDel.manually_delete_tile (0, 0) = Except.error "KeyError") ∧
    (∀ v, lookupKey bsDel.board (0, 0) = some v →
        ∃ bs2, bsDel.manually_delete_tile (0, 0) = Except.ok bs2 ∧
          bs2.height = bsDel.height ∧ bs2.width = bsDel.width ∧
          lookupKey bs2.board (0, 0) = none ∧
          ∀ q, q ≠ (0, 0) → lookupKey bs2.board q = lookupKey bsDel.board q)) := by
  have hwf : WF bsDel := by
    constructor
    · simp [bsDel]
    · intro e he
      simp [bsDel] at he
      simp [he, entryOK]
  exact ⟨hwf, claim_C6 bsDel (0, 0) hwf⟩

/-! ### Claim C7: get_tile mutates the defaultdict -/

/-- Board used to exhibit the defaultdict read side effect. -/
def bsGet : BoardState := ⟨15, 15, [((0, 0), some ⟨(0, 0), 'a'⟩)]⟩

/-- C7: `get_tile` returns the stored tile (or `none` on an empty cell), but
a read of an empty cell inserts a `None` entry into the defaultdict, so the
grid is NOT left unchanged: the cell afterwards tests as occupied, and a
subsequent `put_word` at that cell crashes (AttributeError on `None.letter`)
instead of writing the tile. -/
theorem claim_C7 :
    (bsGet.get_tile (0, 0)).1 = some ⟨(0, 0), 'a'⟩ ∧
    (bsGet.get_tile (0, 0)).2 = bsGet ∧
    (bsGet.get_tile (1, 0)).1 = none ∧
    hasKey bsGet.board (1, 0) = false ∧
    hasKey ((bsGet.get_tile (1, 0)).2).board (1, 0) = true ∧
    (BoardState.put_word bsGet [⟨(1, 0), 'b'⟩]).2 = none ∧
    (BoardState.put_word ((bsGet.get_tile (1, 0)).2) [⟨(1, 0), 'b'⟩]).2 =
      some PutErr.attrError := by
  refine ⟨rfl, rfl, rfl, rfl, rfl, rfl, rfl⟩

/-! ### Claim C5: put_word -/

theorem put_word_keeps_lookup :
    ∀ (w : List BoardTile) (bs bs1 : BoardState) (r : Option PutErr),
      BoardState.put_word bs w = (bs1, r) →
      ∀ p v, lookupKey bs.board p = some v → lookupKey bs1.board p = some v := by
  intro w
  induction w with
  | nil =>
    intro bs bs1 r h p v hv
    simp only [BoardState.put_word] at h
    cases h
    exact hv
  | cons t rest ih =>
    intro bs bs1 r h p v hv
    simp only [BoardState.put_word] at h
    rcases hl : lookupKey bs.board t.pos with _ | exv
    · rw [hl] at h
      simp only at h
      rcases hput : bs.manually_put_tile t with err | bs2
      · rw [hput] at h
        simp only at h
        cases h
        exact hv
      · rw [hput] at h
        simp only at h
        unfold BoardState.manually_put_tile at hput
        by_cases hc : bs.contains t.pos = true
        · rw [if_pos hc] at hput
          injection hput with hput
          have hne : p ≠ t.pos := by
            intro hpt
            rw [hpt, hl] at hv
            exact Option.noConfusion hv
          have hv2 : lookupKey bs2.board p = some v := by
            rw [← hput]
            simpa [lookupKey_setKey_ne bs.board t.pos p (some t) hne] using hv
          exact ih bs2 bs1 r h p v hv2
        · rw [if_neg hc] at hput
          exact Except.noConfusion hput
    · rcases exv with _ | ex
      · rw [hl] at h
        simp only at h
        cases h
        exact hv
      · rw [hl] at h
        simp only at h
        by_cases hne : t.letter ≠ ex.letter
        · rw [if_pos hne] at h
          cases h
          exact hv
        · rw [if_neg hne] at h
          exact ih bs bs1 r h p v hv

theorem mem_setKey {b : Board} {p : Pos} {v : Option BoardTile} {x : Pos × Option BoardTile}
    (h : x ∈ setKey b p v) : x ∈ b ∨ x = (p, v) := by
  induction b with
  | nil => simpa [setKey] using h
  | cons e rest ih =>
    by_cases hp : p = e.1
    · simp only [setKey, if_pos hp] at h
      rcases List.mem_cons.mp h with rfl | hmem
      · right
        rw [hp]
      · exact Or.inl (List.mem_cons_of_mem _ hmem)
    · simp only [setKey, if_neg hp] at h
      rcases List.mem_cons.mp h with rfl | hmem
      · exact Or.inl (List.mem_cons_self _ _)
      · rcases ih hmem with hold | hnew
        · exact Or.inl (List.mem_cons_of_mem _ hold)
        · exact Or.inr hnew

theorem pairwise_setKey_absent {b : Board} {p : Pos} {v : Option BoardTile}
    (hnd : b.Pairwise (fun a b => a.1 ≠ b.1)) (hl : lookupKey b p = none) :
    (setKey b p v).Pairwise (fun a b => a.1 ≠ b.1) := by
  induction b with
  | nil => simp [setKey]
  | cons e rest ih =>
    rcases List.pairwise_cons.mp hnd with ⟨hhead, htail⟩
    have hpe : ¬ p = e.1 := by
      intro hp
      simp [lookupKey, hp] at hl
    simp only [lookupKey, if_neg hpe] at hl
    simp only [setKey, if_neg hpe]
    refine List.pairwise_cons.mpr ⟨?_, ih htail hl⟩
    intro x hx
    rcases mem_setKey hx with hold | rfl
    · exact hhead x hold
    · exact fun he => hpe (he.symm)

theorem WF_setKey_tile {bs : BoardState} {p : Pos} {t : BoardTile}
    (hwf : WF bs) (hl : lookupKey bs.board p = none) (hp : t.pos = p) :
    WF { bs with board := setKey bs.board p (some t) } := by
  constructor
  · exact pairwise_setKey_absent hwf.1 hl
  · intro e he
    rcases mem_setKey he with hold | rfl
    · exact hwf.2 e hold
    · simp [entryOK, hp]

theorem put_word_dims :
    ∀ (w : List BoardTile) (bs bs1 : BoardState) (r : Option PutErr),
      BoardState.put_word bs w = (bs1, r) →
      bs1.height = bs.height ∧ bs1.width = bs.width := by
  intro w
  induction w with
  | nil =>
    intro bs bs1 r h
    simp only [BoardState.put_word] at h
    cases h
    exact ⟨rfl, rfl⟩
  | cons t rest ih =>
    intro bs bs1 r h
    simp only [BoardState.put_word] at h
    rcases hl : lookupKey bs.board t.pos with _ | exv
    · rw [hl] at h
      simp only at h
      rcases hput : bs.manually_put_tile t with err | bs2
      · rw [hput] at h
        simp only at h
        cases h
        exact ⟨rfl, rfl⟩
      · rw [hput] at h
        simp only at h
        unfold BoardState.manually_put_tile at hput
        by_cases hc : bs.contains t.pos = true
        · rw [if_pos hc] at hput
          injection hput with hput
          have := ih bs2 bs1 r h
          rw [← hput] at this
          exact this
        · rw [if_neg hc] at hput
          exact Except.noConfusion hput
    · rcases exv with _ | ex
      · rw [hl] at h
        simp only at h
        cases h
        exact ⟨rfl, rfl⟩
      · rw [hl] at h
        simp only at h
        by_cases hne : t.letter ≠ ex.letter
        · rw [if_pos hne] at h
          cases h
          exact ⟨rfl, rfl⟩
        · rw [if_neg hne] at h
          exact ih bs bs1 r h

theorem put_word_WF :
    ∀ (w : List BoardTile) (bs bs1 : BoardState) (r : Option PutErr),
      WF bs → BoardState.put_word bs w = (bs1, r) → WF bs1 := by
  intro w
  induction w with
  | nil =>
    intro bs bs1 r hwf h
    simp only [BoardState.put_word] at h
    cases h
    exact hwf
  | cons t rest ih =>
    intro bs bs1 r hwf h
    simp only [BoardState.put_word] at h
    rcases hl : lookupKey bs.board t.pos with _ | exv
    · rw [hl] at h
      simp only at h
      rcases hput : bs.manually_put_tile t with err | bs2
      · rw [hput] at h
        simp only at h
        cases h
        exact hwf
      · rw [hput] at h
        simp only at h
        unfold BoardState.manually_put_tile at hput
        by_cases hc : bs.contains t.pos = true
        · rw [if_pos hc] at hput
          injection hput with hput
          have hwf2 : WF bs2 := by
            rw [← hput]
            exact WF_setKey_tile hwf hl rfl
          exact ih bs2 bs1 r hwf2 h
        · rw [if_neg hc] at hput
          exact Except.noConfusion hput
    · rcases exv with _ | ex
      · rw [hl] at h
        simp only at h
        cases h
        exact hwf
      · rw [hl] at h
        simp only at h
        by_cases hne : t.letter ≠ ex.letter
        · rw [if_pos hne] at h
          cases h
          exact hwf
        · rw [if_neg hne] at h
          exact ih bs bs1 r hwf h

theorem put_word_success_lookup :
    ∀ (w : List BoardTile) (bs bs1 : BoardState),
      BoardState.put_word bs w = (bs1, none) →
      ∀ t ∈ w, ∃ ts, lookupKey bs1.board t.pos = some (some ts) ∧
        ts.letter = t.letter := by
  intro w
  induction w with
  | nil =>
    intro bs bs1 h t ht
    simp at ht
  | cons t rest ih =>
    intro bs bs1 h s hs
    simp only [BoardState.put_word] at h
    rcases hl : lookupKey bs.board t.pos with _ | exv
    · rw [hl] at h
      simp only at h
      rcases hput : bs.manually_put_tile t with err | bs2
      · rw [hput] at h
        simp only at h
        injection h with h1 h2
        exact Option.noConfusion h2
      · rw [hput] at h
        simp only at h
        unfold BoardState.manually_put_tile at hput
        by_cases hc : bs.contains t.pos = true
        · rw [if_pos hc] at hput
          injection hput with hput
          rcases List.mem_cons.mp hs with rfl | hmem
          · have hbs2 : lookupKey bs2.board s.pos = some (some s) := by
              rw [← hput]
              exact lookupKey_setKey_self bs.board s.pos (some s)
            obtain hb1 := put_word_keeps_lookup rest bs2 bs1 none h s.pos (some s) hbs2
            exact ⟨s, hb1, rfl⟩
          · exact ih bs2 bs1 h s hmem
        · rw [if_neg hc] at hput
          exact Except.noConfusion hput
    · rcases exv with _ | ex
      · rw [hl] at h
        simp only at h
        injection h with h1 h2
        exact Option.noConfusion h2
      · rw [hl] at h
        simp only at h
        by_cases hne : t.letter ≠ ex.letter
        · rw [if_pos hne] at h
          injection h with h1 h2
          exact Option.noConfusion h2
        · rw [if_neg hne] at h
          rcases List.mem_cons.mp hs with rfl | hmem
          · obtain hb1 := put_word_keeps_lookup rest bs bs1 none h s.pos (some ex) hl
            exact ⟨ex, hb1, (not_ne_iff.mp hne).symm⟩
          · exact ih bs bs1 h s hmem

theorem put_word_noop :
    ∀ (w : List BoardTile) (bs1 : BoardState),
      (∀ t ∈ w, ∃ ts, lookupKey bs1.board t.pos = some (some ts) ∧
        ts.letter = t.letter) →
      BoardState.put_word bs1 w = (bs1, none) := by
  intro w
  induction w with
  | nil =>
    intro bs1 _
    rfl
  | cons t rest ih =>
    intro bs1 hall
    obtain ⟨ts, hts, hlet⟩ := hall t (List.mem_cons_self t rest)
    simp only [BoardState.put_word, hts]
    rw [if_neg (by rw [hlet]; exact fun hne => hne rfl)]
    exact ih bs1 (fun s hs => hall s (List.mem_cons_of_mem _ hs))

theorem put_word_fail_shape :
    ∀ (w : List BoardTile) (bs : BoardState), WF bs →
      (∀ t ∈ w, bs.contains t.pos = true) →
      ∀ (bs1 : BoardState) (e : PutErr),
        BoardState.put_word bs w = (bs1, some e) →
        ∃ l1 t l2 ex, w = l1 ++ t :: l2 ∧ e = PutErr.letterMismatch ex t ∧
          t.letter ≠ ex.letter ∧ lookupKey bs1.board t.pos = some (some ex) ∧
          ∀ s ∈ l1, ∃ ts, lookupKey bs1.board s.pos = some (some ts) ∧
            ts.letter = s.letter := by
  intro w
  induction w with
  | nil =>
    intro bs _ _ bs1 e h
    simp only [BoardState.put_word] at h
    injection h with h1 h2
    exact Option.noConfusion h2
  | cons t rest ih =>
    intro bs hwf hon bs1 e h
    simp only [BoardState.put_word] at h
    rcases hl : lookupKey bs.board t.pos with _ | exv
    · rw [hl] at h
      simp only at h
      rcases hput : bs.manually_put_tile t with err | bs2
      · unfold BoardState.manually_put_tile at hput
        rw [if_pos (hon t (List.mem_cons_self t rest))] at hput
        exact Except.noConfusion hput
      · rw [hput] at h
        simp only at h
        unfold BoardState.manually_put_tile at hput
        rw [if_pos (hon t (List.mem_cons_self t rest))] at hput
        injection hput with hput
        have hwf2 : WF bs2 := by
          rw [← hput]
          exact WF_setKey_tile hwf hl rfl
        have hon2 : ∀ s ∈ rest, bs2.contains s.pos = true := by
          intro s hs
          have : bs2.contains s.pos = bs.contains s.pos := by
            rw [← hput]
            rfl
          rw [this]
          exact hon s (List.mem_cons_of_mem _ hs)
        obtain ⟨l1, t', l2, ex, hw, he, hne, hlk, hpre⟩ := ih bs2 hwf2 hon2 bs1 e h
        refine ⟨t :: l1, t', l2, ex, by rw [hw, List.cons_append], he, hne, hlk, ?_⟩
        intro s hs
        rcases List.mem_cons.mp hs with rfl | hmem
        · have hbs2 : lookupKey bs2.board s.pos = some (some s) := by
            rw [← hput]
            exact lookupKey_setKey_self bs.board s.pos (some s)
          exact ⟨s, put_word_keeps_lookup rest bs2 bs1 (some e) h s.pos (some s) hbs2, rfl⟩
        · exact hpre s hmem
    · rcases exv with _ | ex
      · exfalso
        have := hwf.2 (t.pos, none) (lookupKey_mem hl)
        simp [entryOK] at this
      · rw [hl] at h
        simp only at h
        by_cases hne : t.letter ≠ ex.letter
        · rw [if_pos hne] at h
          injection h with h1 h2
          obtain rfl : e = PutErr.letterMismatch ex t := by
            injection h2.symm
          refine ⟨[], t, rest, ex, rfl, rfl, hne, ?_, by simp⟩
          rw [← h1]
          exact hl
        · rw [if_neg hne] at h
          obtain ⟨l1, t', l2, ex', hw, he, hne', hlk, hpre⟩ :=
            ih bs hwf (fun s hs => hon s (List.mem_cons_of_mem _ hs)) bs1 e h
          refine ⟨t :: l1, t', l2, ex', by rw [hw, List.cons_append], he, hne', hlk, ?_⟩
          intro s hs
          rcases List.mem_cons.mp hs with rfl | hmem
          · exact ⟨ex, put_word_keeps_lookup rest bs bs1 (some e) h s.pos (some ex) hl,
              (not_ne_iff.mp hne).symm⟩
          · exact hpre s hmem

theorem put_word_mismatch_fails :
    ∀ (w : List BoardTile) (bs : BoardState),
      (∃ t ∈ w, ∃ ex, lookupKey bs.board t.pos = some (some ex) ∧
        ex.letter ≠ t.letter) →
      ((BoardState.put_word bs w).2).isSome = true := by
  intro w
  induction w with
  | nil =>
    intro bs h
    simp at h
  | cons t rest ih =>
    intro bs h
    obtain ⟨s, hs, ex, hlk, hne⟩ := h
    simp only [BoardState.put_word]
    rcases List.mem_cons.mp hs with rfl | hmem
    · rw [hlk]
      simp only
      rw [if_pos (fun heq => hne heq.symm)]
      rfl
    · rcases hl : lookupKey bs.board t.pos with _ | exv
      · simp only
        rcases hput : bs.manually_put_tile t with err | bs2
        · rfl
        · unfold BoardState.manually_put_tile at hput
          by_cases hc : bs.contains t.pos = true
          · rw [if_pos hc] at hput
            injection hput with hput
            apply ih bs2
            refine ⟨s, hmem, ex, ?_, hne⟩
            have hsp : s.pos ≠ t.pos := by
              intro hpt
              rw [hpt, hl] at hlk
              exact Option.noConfusion hlk
            rw [← hput]
            show lookupKey (setKey bs.board t.pos (some t)) s.pos = some (some ex)
            rw [lookupKey_setKey_ne bs.board t.pos s.pos (some t) hsp]
            exact hlk
          · rw [if_neg hc] at hput
            exact Except.noConfusion hput
      · rcases exv with _ | ex'
        · rfl
        · simp only
          by_cases hne' : t.letter ≠ ex'.letter
          · rw [if_pos hne']
            rfl
          · rw [if_neg hne']
            exact ih bs ⟨s, hmem, ex, hlk, hne⟩

/-- C5: on a well-formed board, for a word all of whose tiles are on-board:
if placing the word succeeds, placing the identical word again succeeds and
is a no-op; if a tile's letter conflicts with an already-placed tile at the
same position the placement fails, the failure is a letter-mismatch error
carrying the existing tile and the conflicting one, and every tile processed
before the failing one remains written (no rollback). -/
theorem claim_C5 (bs : BoardState) (w : List BoardTile) (hwf : WF bs)
    (hon : ∀ t ∈ w, bs.contains t.pos = true) :
    (∀ bs1, BoardState.put_word bs w = (bs1, none) →
        BoardState.put_word bs1 w = (bs1, none)) ∧
    ((∃ t ∈ w, ∃ ex, lookupKey bs.board t.pos = some (some ex) ∧
        ex.letter ≠ t.letter) →
      ((BoardState.put_word bs w).2).isSome = true) ∧
    (∀ bs1 e, BoardState.put_word bs w = (bs1, some e) →
        ∃ l1 t l2 ex, w = l1 ++ t :: l2 ∧ e = PutErr.letterMismatch ex t ∧
          t.letter ≠ ex.letter ∧ lookupKey bs1.board t.pos = some (some ex) ∧
          ∀ s ∈ l1, ∃ ts, lookupKey bs1.board s.pos = some (some ts) ∧
            ts.letter = s.letter) := by
  refine ⟨?_, put_word_mismatch_fails w bs, fun bs1 e h => put_word_fail_shape w bs hwf hon bs1 e h⟩
  intro bs1 h
  exact put_word_noop w bs1 (put_word_success_lookup w bs bs1 h)

/-- Word used in the claim C5 witness. -/
def wordAB : List BoardTile := [⟨(0, 0), 'a'⟩, ⟨(1, 0), 'b'⟩]

theorem claim_C5_witness :
    WF (BoardState.init 15 15) ∧
    (∀ t ∈ wordAB, (BoardState.init 15 15).contains t.pos = true) ∧
    ((∀ bs1, BoardState.put_word (BoardState.init 15 15) wordAB = (bs1, none) →
        BoardState.put_word bs1 wordAB = (bs1, none)) ∧
    ((∃ t ∈ wordAB, ∃ ex,
        lookupKey (BoardState.init 15 15).board t.pos = some (some ex) ∧
        ex.letter ≠ t.letter) →
      ((BoardState.put_word (BoardState.init 15 15) wordAB).2).isSome = true) ∧
    (∀ bs1 e, BoardState.put_word (BoardState.init 15 15) wordAB = (bs1, some e) →
        ∃ l1 t l2 ex, wordAB = l1 ++ t :: l2 ∧ e = PutErr.letterMismatch ex t ∧
          t.letter ≠ ex.letter ∧ lookupKey bs1.board t.pos = some (some ex) ∧
          ∀ s ∈ l1, ∃ ts, lookupKey bs1.board s.pos = some (some ts) ∧
            ts.letter = s.letter)) := by
  have hwf : WF (BoardState.init 15 15) := ⟨by simp [BoardState.init], by simp [BoardState.init]⟩
  have hon : ∀ t ∈ wordAB, (BoardState.init 15 15).contains t.pos = true := by decide
  exact ⟨hwf, hon, claim_C5 (BoardState.init 15 15) wordAB hwf hon⟩

/-! ### The pattern generator (`__make_pattern_rec` / `make_patterns`) -/

/-- The letter sequence of a tile list (the memo key
`tuple([w.letter for w in current])`). -/
def letters (l : List BoardTile) : List Char := l.map (fun t => t.letter)

/-- `frontier_left`: one axis step before the first tile of the run. -/
def frontLeft (d : Dir) (cur : List BoardTile) : Pos :=
  match cur.head? with
  | some t => (t.pos.1 - (Dir.step d).1, t.pos.2 - (Dir.step d).2)
  | none => (0, 0)

/-- `frontier_right`: one axis step after the last tile of the run. -/
def frontRight (d : Dir) (cur : List BoardTile) : Pos :=
  match cur.getLast? with
  | some t => (t.pos.1 + (Dir.step d).1, t.pos.2 + (Dir.step d).2)
  | none => (0, 0)

/-- The two accumulators `__make_pattern_rec` mutates in place: the result
list `ret` and the per-level memo set `visited` (a set of letter tuples). -/
structure RecSt where
  ret : List (List BoardTile)
  visited : List (List Char)
deriving DecidableEq

/-- `BoardState.__make_pattern_rec`, with an explicit fuel for termination
(the Python recursion terminates because the dictionary and the bounds are
finite; every theorem below holds for every fuel, and concrete runs use a
fuel large enough for the recursion to finish).  A stored `None` value
(possible only after a defaultdict read) would crash Python with
`AttributeError` one call later; it is modelled as returning the state
unchanged, and the theorems assume well-formed boards where relevant. -/
def makePatternRec (bs : BoardState) (d : Dir) :
    Nat → Int → List BoardTile → RecSt → RecSt
  | 0, _, _, st => st
  | fuel + 1, remaining, current, st =>
    if letters current ∈ st.visited then st
    else
      if remaining = 0 ∧ 1 < current.length then
        if current.any (fun t => t.letter = '_') then
          ⟨st.ret ++ [current], letters current :: st.visited⟩
        else ⟨st.ret, letters current :: st.visited⟩
      else
        match lookupKey bs.board (frontLeft d current) with
        | some (some tl) =>
          makePatternRec bs d fuel remaining (tl :: current)
            ⟨st.ret, letters current :: st.visited⟩
        | some none => ⟨st.ret, letters current :: st.visited⟩
        | none =>
          match lookupKey bs.board (frontRight d current) with
          | some (some tr) =>
            makePatternRec bs d fuel remaining (current ++ [tr])
              ⟨st.ret, letters current :: st.visited⟩
          | some none => ⟨st.ret, letters current :: st.visited⟩
          | none =>
            if bs.contains (frontLeft d current) then
              if bs.contains (frontRight d current) then
                makePatternRec bs d fuel (remaining - 1)
                  (current ++ [⟨frontRight d current, '_'⟩])
                  (makePatternRec bs d fuel (remaining - 1)
                    (⟨frontLeft d current, '_'⟩ :: current)
                    ⟨st.ret, letters current :: st.visited⟩)
              else
                makePatternRec bs d fuel (remaining - 1)
                  (⟨frontLeft d current, '_'⟩ :: current)
                  ⟨st.ret, letters current :: st.visited⟩
            else
              if bs.contains (frontRight d current) then
                makePatternRec bs d fuel (remaining - 1)
                  (current ++ [⟨frontRight d current, '_'⟩])
                  ⟨st.ret, letters current :: st.visited⟩
              else ⟨st.ret, letters current :: st.visited⟩

/-- Fuel that lets every concrete recursion in this file run to completion. -/
def recFuel (bs : BoardState) (maxT : Nat) : Nat :=
  bs.board.length + bs.width + bs.height + maxT + 5

/-- The per-budget-level result lists of `make_patterns`: for each
`remaining` in `0 .. maxT - 1`, one independent search from `[anchor]`
with fresh accumulators. -/
def makePatternsLevels (bs : BoardState) (anchor : BoardTile) (d : Dir) (maxT : Nat) :
    List (List (List BoardTile)) :=
  (List.range maxT).map (fun (r : Nat) =>
    (makePatternRec bs d (recFuel bs maxT) (Int.ofNat r) [anchor] ⟨[], []⟩).ret)

/-- `BoardState.make_patterns`: validates the anchor, then concatenates the
per-level results (`ret.extend(scr)`).  Each emitted tile list is wrapped in
`Word(...)` by the Python code; claim C9 proves that construction succeeds. -/
def BoardState.make_patterns (bs : BoardState) (pos : Pos) (d : Dir) (maxT : Nat) :
    Except String (List (List BoardTile)) :=
  if bs.contains pos = true then
    match lookupKey bs.board pos with
    | none => .error "empty position tile"
    | some none => .error "attribute error"
    | some (some t) => .ok (makePatternsLevels bs t d maxT).flatten
  else .error "invalid tile location"

/-- `diff_pos(p1, p2)`. -/
def diff_pos (p1 p2 : Pos) : Pos := (p1.1 - p2.1, p1.2 - p2.2)

/-- `make_direction`: `none` models the `ValueError` for a non-axis vector. -/
def makeDirection (p : Pos) : Option Dir :=
  if p = (0, 1) then some Dir.down
  else if p = (1, 0) then some Dir.across
  else none

/-- The sliding-window loop of `Word.__validate_direction`: folds over
consecutive pairs, inferring the direction from the first pair and enforcing
it on the rest; `none` means validation failed. -/
def validateDir : List BoardTile → Option Dir → Option (Option Dir)
  | [], acc => some acc
  | [_], acc => some acc
  | c :: n :: rest, acc =>
    let diff := diff_pos n.pos c.pos
    match acc with
    | none =>
      match makeDirection diff with
      | none => none
      | some d => validateDir (n :: rest) (some d)
    | some d => if diff = Dir.step d then validateDir (n :: rest) (some d) else none

/-- A `Word` value: the tile list plus the direction inferred at
construction. -/
structure Wrd where
  tiles : List BoardTile
  dir : Dir
deriving DecidableEq

/-- The `Word` constructor: fails on fewer than two tiles or on tiles that
are not contiguous along a single axis. -/
def mkWord (lst : List BoardTile) : Except String Wrd :=
  if lst.length < 2 then .error "invalid word: no single-letter words"
  else
    match validateDir lst none with
    | some (some d) => .ok ⟨lst, d⟩
    | some none => .error "invalid word"
    | none => .error "invalid word"

/-- The next tile is one axis step after the current one. -/
def stepRel (d : Dir) (a b : BoardTile) : Prop :=
  b.pos = (a.pos.1 + (Dir.step d).1, a.pos.2 + (Dir.step d).2)

/-- Spec-side reachability (claim C1's notion): the tile sequences obtainable
from the single-tile anchor run by repeatedly extending outward along the
axis — absorbing an occupied frontier cell at no cost, or placing a
placeholder tile on an empty on-board frontier cell at cost one.  The Nat
counts the placeholder tiles used. -/
inductive Reach (bs : BoardState) (d : Dir) (t0 : BoardTile) :
    List BoardTile → Nat → Prop
  | base : Reach bs d t0 [t0] 0
  | absorbL {cur : List BoardTile} {k : Nat} {tl : BoardTile} :
      Reach bs d t0 cur k →
      lookupKey bs.board (frontLeft d cur) = some (some tl) →
      Reach bs d t0 (tl :: cur) k
  | absorbR {cur : List BoardTile} {k : Nat} {tr : BoardTile} :
      Reach bs d t0 cur k →
      lookupKey bs.board (frontRight d cur) = some (some tr) →
      Reach bs d t0 (cur ++ [tr]) k
  | wildL {cur : List BoardTile} {k : Nat} :
      Reach bs d t0 cur k →
      lookupKey bs.board (frontLeft d cur) = none →
      bs.contains (frontLeft d cur) = true →
      Reach bs d t0 (⟨frontLeft d cur, '_'⟩ :: cur) (k + 1)
  | wildR {cur : List BoardTile} {k : Nat} :
      Reach bs d t0 cur k →
      lookupKey bs.board (frontRight d cur) = none →
      bs.contains (frontRight d cur) = true →
      Reach bs d t0 (cur ++ [⟨frontRight d cur, '_'⟩]) (k + 1)

/-- Master invariant for `makePatternRec`: if `Q` is preserved by the four
extension steps and implies `P` at every emission point, then every element
of the result list satisfies `P` (for any fuel). -/
theorem makePatternRec_ret_inv (bs : BoardState) (d : Dir)
    (P : List BoardTile → Prop) (Q : Int → List BoardTile → Prop)
    (hAL : ∀ r cur tl, Q r cur →
      lookupKey bs.board (frontLeft d cur) = some (some tl) → Q r (tl :: cur))
    (hAR : ∀ r cur tr, Q r cur →
      lookupKey bs.board (frontLeft d cur) = none →
      lookupKey bs.board (frontRight d cur) = some (some tr) → Q r (cur ++ [tr]))
    (hWL : ∀ r cur, Q r cur →
      lookupKey bs.board (frontLeft d cur) = none →
      lookupKey bs.board (frontRight d cur) = none →
      bs.contains (frontLeft d cur) = true →
      Q (r - 1) (⟨frontLeft d cur, '_'⟩ :: cur))
    (hWR : ∀ r cur, Q r cur →
      lookupKey bs.board (frontLeft d cur) = none →
      lookupKey bs.board (frontRight d cur) = none →
      bs.contains (frontRight d cur) = true →
      Q (r - 1) (cur ++ [⟨frontRight d cur, '_'⟩]))
    (hEmit : ∀ cur, Q 0 cur → 1 < cur.length →
      cur.any (fun t => t.letter = '_') = true → P cur) :
    ∀ fuel r cur st, Q r cur → (∀ p ∈ st.ret, P p) →
      ∀ p ∈ (makePatternRec bs d fuel r cur st).ret, P p := by
  intro fuel
  induction fuel with
  | zero =>
    intro r cur st hq hst p hp
    exact hst p hp
  | succ fuel ih =>
    intro r cur st hq hst p hp
    simp only [makePatternRec] at hp
    by_cases hv : letters cur ∈ st.visited
    · rw [if_pos hv] at hp
      exact hst p hp
    · rw [if_neg hv] at hp
      by_cases hterm : r = 0 ∧ 1 < cur.length
      · rw [if_pos hterm] at hp
        by_cases hany : cur.any (fun t => t.letter = '_') = true
        · rw [if_pos hany] at hp
          rcases List.mem_append.mp hp with hold | hnew
          · exact hst p hold
          · rw [List.mem_singleton.mp hnew]
            exact hEmit cur (hterm.1 ▸ hq) hterm.2 hany
        · rw [if_neg hany] at hp
          exact hst p hp
      · rw [if_neg hterm] at hp
        rcases hfl : lookupKey bs.board (frontLeft d cur) with _ | vl
        · rw [hfl] at hp
          rcases hfr : lookupKey bs.board (frontRight d cur) with _ | vr
          · rw [hfr] at hp
            by_cases hcl : bs.contains (frontLeft d cur) = true
            · rw [if_pos hcl] at hp
              by_cases hcr : bs.contains (frontRight d cur) = true
              · rw [if_pos hcr] at hp
                have hinner : ∀ q ∈ (makePatternRec bs d fuel (r - 1)
                    (⟨frontLeft d cur, '_'⟩ :: cur)
                    ⟨st.ret, letters cur :: st.visited⟩).ret, P q :=
                  ih (r - 1) (⟨frontLeft d cur, '_'⟩ :: cur)
                    ⟨st.ret, letters cur :: st.visited⟩
                    (hWL r cur hq hfl hfr hcl) hst
                exact ih (r - 1) (cur ++ [⟨frontRight d cur, '_'⟩]) _
                  (hWR r cur hq hfl hfr hcr) hinner p hp
              · rw [if_neg hcr] at hp
                exact ih (r - 1) (⟨frontLeft d cur, '_'⟩ :: cur)
                  ⟨st.ret, letters cur :: st.visited⟩
                  (hWL r cur hq hfl hfr hcl) hst p hp
            · rw [if_neg hcl] at hp
              by_cases hcr : bs.contains (frontRight d cur) = true
              · rw [if_pos hcr] at hp
                exact ih (r - 1) (cur ++ [⟨frontRight d cur, '_'⟩])
                  ⟨st.ret, letters cur :: st.visited⟩
                  (hWR r cur hq hfl hfr hcr) hst p hp
              · rw [if_neg hcr] at hp
                exact hst p hp
          · rcases vr with _ | tr
            · rw [hfr] at hp
              exact hst p hp
            · rw [hfr] at hp
              exact ih r (cur ++ [tr]) ⟨st.ret, letters cur :: st.visited⟩
                (hAR r cur tr hq hfl hfr) hst p hp
        · rcases vl with _ | tl
          · rw [hfl] at hp
            exact hst p hp
          · rw [hfl] at hp
            exact ih r (tl :: cur) ⟨st.ret, letters cur :: st.visited⟩
              (hAL r cur tl hq hfl) hst p hp

/-! ### Claim C1: what make_patterns returns is reachable; completeness fails -/

/-- C1 (amended): every pattern returned by `make_patterns` is reachable from
the anchor by outward extension along the axis using at most `maxT - 1`
placeholder tiles (exactly `k < maxT` of them), and contains at least one
placeholder letter.  The converse inclusion — that every reachable pattern
with at most `maxT` placeholders is returned — is false (see the
counterexample). -/
theorem claim_C1 (bs : BoardState) (pos : Pos) (d : Dir) (maxT : Nat)
    (t0 : BoardTile) (out : List (List BoardTile))
    (hl : lookupKey bs.board pos = some (some t0))
    (h : bs.make_patterns pos d maxT = Except.ok out) :
    ∀ p ∈ out, ∃ k, Reach bs d t0 p k ∧ k < maxT ∧
      p.any (fun t => t.letter = '_') = true := by
  unfold BoardState.make_patterns at h
  by_cases hc : bs.contains pos = true
  · rw [if_pos hc, hl] at h
    injection h with h
    intro p hp
    rw [← h] at hp
    obtain ⟨lvl, hlvl, hplvl⟩ := List.mem_flatten.mp hp
    unfold makePatternsLevels at hlvl
    obtain ⟨r, hr, hlvl⟩ := List.mem_map.mp hlvl
    have hrm : r < maxT := List.mem_range.mp hr
    rw [← hlvl] at hplvl
    have hmain : Reach bs d t0 p r ∧ p.any (fun t => t.letter = '_') = true := by
      refine makePatternRec_ret_inv bs d
        (fun q => Reach bs d t0 q r ∧ q.any (fun t => t.letter = '_') = true)
        (fun rm cur => ∃ k, Reach bs d t0 cur k ∧ rm = (r : Int) - (k : Int))
        ?_ ?_ ?_ ?_ ?_ (recFuel bs maxT) (r : Int) [t0] ⟨[], []⟩
        ⟨0, Reach.base, by omega⟩ (by simp) p hplvl
      · rintro rm cur tl ⟨k, hre, hk⟩ hfl
        exact ⟨k, Reach.absorbL hre hfl, hk⟩
      · rintro rm cur tr ⟨k, hre, hk⟩ _ hfr
        exact ⟨k, Reach.absorbR hre hfr, hk⟩
      · rintro rm cur ⟨k, hre, hk⟩ hfl hfr hcl
        exact ⟨k + 1, Reach.wildL hre hfl hcl, by omega⟩
      · rintro rm cur ⟨k, hre, hk⟩ hfl hfr hcr
        exact ⟨k + 1, Reach.wildR hre hfr hcr, by omega⟩
      · rintro cur ⟨k, hre, hk⟩ _ hany
        obtain rfl : k = r := by omega
        exact ⟨hre, hany⟩
    exact ⟨r, hmain.1, hrm, hmain.2⟩
  · rw [if_neg hc] at h
    exact Except.noConfusion h

/-- Single-tile board used for the claim C1 counterexample and witness. -/
def bsOne : BoardState := ⟨4, 4, [((2, 2), some ⟨(2, 2), 'a'⟩)]⟩

/-- The pattern "a__": reachable with 2 placeholders. -/
def patAWW : List BoardTile := [⟨(2, 2), 'a'⟩, ⟨(3, 2), '_'⟩, ⟨(4, 2), '_'⟩]

/-- C1 counterexample: with budget maxTiles = 2, the pattern "a__" is
reachable from the anchor using at most 2 placeholder tiles and contains a
placeholder, yet `make_patterns` does not return it (the budget loop stops
at `maxTiles - 1` placeholders). -/
theorem claim_C1_counterexample :
    Reach bsOne Dir.across ⟨(2, 2), 'a'⟩ patAWW 2 ∧
    patAWW.any (fun t => t.letter = '_') = true ∧
    bsOne.make_patterns (2, 2) Dir.across 2 =
      Except.ok [[⟨(1, 2), '_'⟩, ⟨(2, 2), 'a'⟩], [⟨(2, 2), 'a'⟩, ⟨(3, 2), '_'⟩]] ∧
    patAWW ∉ [[⟨(1, 2), '_'⟩, ⟨(2, 2), 'a'⟩], [⟨(2, 2), 'a'⟩, ⟨(3, 2), '_'⟩]] := by
  refine ⟨?_, by decide, by rfl, by decide⟩
  exact Reach.wildR (Reach.wildR Reach.base (by decide) (by decide))
    (by decide) (by decide)

theorem claim_C1_witness :
    lookupKey bsOne.board (2, 2) = some (some ⟨(2, 2), 'a'⟩) ∧
    (∀ p ∈ [[⟨(1, 2), '_'⟩, ⟨(2, 2), 'a'⟩], [⟨(2, 2), 'a'⟩, ⟨(3, 2), '_'⟩]],
      ∃ k, Reach bsOne Dir.across ⟨(2, 2), 'a'⟩ p k ∧ k < 2 ∧
        p.any (fun t => t.letter = '_') = true) := by
  refine ⟨by decide, ?_⟩
  exact claim_C1 bsOne (2, 2) Dir.across 2 ⟨(2, 2), 'a'⟩ _ (by decide) (by rfl)

/-! ### Claim C2: placeholder presence and per-level distinctness -/

/-- The memo set keeps the emitted letter sequences distinct: if every
already-collected pattern's letter sequence is in the memo, this is preserved
by the recursion, and the collected list stays pairwise distinct in letters. -/
theorem makePatternRec_distinct (bs : BoardState) (d : Dir) :
    ∀ fuel (r : Int) cur st,
      (∀ p ∈ st.ret, letters p ∈ st.visited) →
      st.ret.Pairwise (fun a b => letters a ≠ letters b) →
      (∀ p ∈ (makePatternRec bs d fuel r cur st).ret,
          letters p ∈ (makePatternRec bs d fuel r cur st).visited) ∧
      (makePatternRec bs d fuel r cur st).ret.Pairwise
        (fun a b => letters a ≠ letters b) := by
  intro fuel
  induction fuel with
  | zero =>
    intro r cur st hmem hpw
    exact ⟨hmem, hpw⟩
  | succ fuel ih =>
    intro r cur st hmem hpw
    simp only [makePatternRec]
    by_cases hv : letters cur ∈ st.visited
    · rw [if_pos hv]
      exact ⟨hmem, hpw⟩
    · rw [if_neg hv]
      have hmem1 : ∀ p ∈ st.ret, letters p ∈ letters cur :: st.visited :=
        fun p hp => List.mem_cons_of_mem _ (hmem p hp)
      by_cases hterm : r = 0 ∧ 1 < cur.length
      · rw [if_pos hterm]
        by_cases hany : cur.any (fun t => t.letter = '_') = true
        · rw [if_pos hany]
          constructor
          · intro p hp
            rcases List.mem_append.mp hp with hold | hnew
            · exact List.mem_cons_of_mem _ (hmem p hold)
            · rw [List.mem_singleton.mp hnew]
              exact List.mem_cons_self _ _
          · refine List.pairwise_append.mpr ⟨hpw, List.pairwise_singleton _ _, ?_⟩
            intro a ha b hb
            rw [List.mem_singleton.mp hb]
            intro heq
            exact hv (heq ▸ hmem a ha)
        · rw [if_neg hany]
          exact ⟨hmem1, hpw⟩
      · rw [if_neg hterm]
        rcases hfl : lookupKey bs.board (frontLeft d cur) with _ | vl
        · rcases hfr : lookupKey bs.board (frontRight d cur) with _ | vr
          · by_cases hcl : bs.contains (frontLeft d cur) = true
            · rw [if_pos hcl]
              by_cases hcr : bs.contains (frontRight d cur) = true
              · rw [if_pos hcr]
                obtain ⟨hm2, hp2⟩ := ih (r - 1) (⟨frontLeft d cur, '_'⟩ :: cur)
                  ⟨st.ret, letters cur :: st.visited⟩ hmem1 hpw
                exact ih (r - 1) (cur ++ [⟨frontRight d cur, '_'⟩]) _ hm2 hp2
              · rw [if_neg hcr]
                exact ih (r - 1) (⟨frontLeft d cur, '_'⟩ :: cur)
                  ⟨st.ret, letters cur :: st.visited⟩ hmem1 hpw
            · rw [if_neg hcl]
              by_cases hcr : bs.contains (frontRight d cur) = true
              · rw [if_pos hcr]
                exact ih (r - 1) (cur ++ [⟨frontRight d cur, '_'⟩])
                  ⟨st.ret, letters cur :: st.visited⟩ hmem1 hpw
              · rw [if_neg hcr]
                exact ⟨hmem1, hpw⟩
          · rcases vr with _ | tr
            · exact ⟨hmem1, hpw⟩
            · exact ih r (cur ++ [tr]) ⟨st.ret, letters cur :: st.visited⟩ hmem1 hpw
        · rcases vl with _ | tl
          · exact ⟨hmem1, hpw⟩
          · exact ih r (tl :: cur) ⟨st.ret, letters cur :: st.visited⟩ hmem1 hpw

/-- C2: every pattern emitted by `make_patterns` contains at least one
placeholder letter, and within a single budget level of the outer loop no
two collected patterns have the same letter sequence. -/
theorem claim_C2 (bs : BoardState) (pos : Pos) (d : Dir) (maxT : Nat)
    (t0 : BoardTile) (hc : bs.contains pos = true)
    (hl : lookupKey bs.board pos = some (some t0)) :
    bs.make_patterns pos d maxT =
      Except.ok (makePatternsLevels bs t0 d maxT).flatten ∧
    (∀ p ∈ (makePatternsLevels bs t0 d maxT).flatten,
        p.any (fun t => t.letter = '_') = true) ∧
    (∀ lvl ∈ makePatternsLevels bs t0 d maxT,
        lvl.Pairwise (fun a b => letters a ≠ letters b)) := by
  refine ⟨by simp [BoardState.make_patterns, hc, hl], ?_, ?_⟩
  · intro p hp
    obtain ⟨lvl, hlvl, hplvl⟩ := List.mem_flatten.mp hp
    unfold makePatternsLevels at hlvl
    obtain ⟨r, _, hlvl⟩ := List.mem_map.mp hlvl
    rw [← hlvl] at hplvl
    exact makePatternRec_ret_inv bs d
      (fun q => q.any (fun t => t.letter = '_') = true) (fun _ _ => True)
      (fun _ _ _ _ _ => trivial) (fun _ _ _ _ _ _ => trivial)
      (fun _ _ _ _ _ _ => trivial) (fun _ _ _ _ _ _ => trivial)
      (fun cur _ _ hany => hany)
      (recFuel bs maxT) (Int.ofNat r) [t0] ⟨[], []⟩ trivial (by simp) p hplvl
  · intro lvl hlvl
    unfold makePatternsLevels at hlvl
    obtain ⟨r, _, hlvl⟩ := List.mem_map.mp hlvl
    rw [← hlvl]
    exact (makePatternRec_distinct bs d (recFuel bs maxT) (Int.ofNat r) [t0]
      ⟨[], []⟩ (by simp) List.Pairwise.nil).2

/-- Single-tile board used for the claim C2 witness. -/
def bsTwo : BoardState := ⟨3, 3, [((1, 1), some ⟨(1, 1), 'c'⟩)]⟩

theorem claim_C2_witness :
    bsTwo.contains (1, 1) = true ∧
    (bsTwo.make_patterns (1, 1) Dir.down 3 =
      Except.ok (makePatternsLevels bsTwo ⟨(1, 1), 'c'⟩ Dir.down 3).flatten ∧
    (∀ p ∈ (makePatternsLevels bsTwo ⟨(1, 1), 'c'⟩ Dir.down 3).flatten,
        p.any (fun t => t.letter = '_') = true) ∧
    (∀ lvl ∈ makePatternsLevels bsTwo ⟨(1, 1), 'c'⟩ Dir.down 3,
        lvl.Pairwise (fun a b => letters a ≠ letters b))) := by
  exact ⟨by decide, claim_C2 bsTwo (1, 1) Dir.down 3 ⟨(1, 1), 'c'⟩ (by decide) (by decide)⟩

/-! ### Claim C9: emitted patterns are valid Words containing the anchor -/

theorem WF_lookup_pos {bs : BoardState} {p : Pos} {t : BoardTile}
    (hwf : WF bs) (hl : lookupKey bs.board p = some (some t)) : t.pos = p := by
  have := hwf.2 _ (lookupKey_mem hl)
  simpa [entryOK] using this

theorem makeDirection_step (d : Dir) : makeDirection (Dir.step d) = some d := by
  cases d <;> rfl

theorem validateDir_chain (d : Dir) :
    ∀ lst, List.Chain' (stepRel d) lst →
      validateDir lst (some d) = some (some d)
  | [], _ => rfl
  | [_], _ => rfl
  | c :: n :: rest, h => by
    have h1 : stepRel d c n := (List.chain'_cons.mp h).1
    have h2 : List.Chain' (stepRel d) (n :: rest) := (List.chain'_cons.mp h).2
    have hdiff : diff_pos n.pos c.pos = Dir.step d := by
      unfold stepRel at h1
      unfold diff_pos
      rw [h1]
      exact Prod.ext (by simp) (by simp)
    simp only [validateDir, hdiff, if_pos rfl]
    exact validateDir_chain d (n :: rest) h2

theorem mkWord_of_chain (d : Dir) (lst : List BoardTile)
    (hlen : 1 < lst.length) (hch : List.Chain' (stepRel d) lst) :
    mkWord lst = Except.ok ⟨lst, d⟩ := by
  match lst, hlen with
  | c :: n :: rest, _ =>
    have h1 : stepRel d c n := (List.chain'_cons.mp hch).1
    have h2 : List.Chain' (stepRel d) (n :: rest) := (List.chain'_cons.mp hch).2
    have hdiff : diff_pos n.pos c.pos = Dir.step d := by
      unfold stepRel at h1
      unfold diff_pos
      rw [h1]
      exact Prod.ext (by simp) (by simp)
    have hval : validateDir (c :: n :: rest) none = some (some d) := by
      simp only [validateDir, hdiff, makeDirection_step]
      exact validateDir_chain d (n :: rest) h2
    simp only [mkWord, hval]
    rw [if_neg (by simp)]

/-- C9: every pattern returned by `make_patterns` is a valid `Word`: at
least two tiles, consecutive positions differing by exactly the unit step of
the requested axis, and it contains the anchor position carrying the
anchor's original letter. -/
theorem claim_C9 (bs : BoardState) (pos : Pos) (d : Dir) (maxT : Nat)
    (t0 : BoardTile) (out : List (List BoardTile)) (hwf : WF bs)
    (hl : lookupKey bs.board pos = some (some t0))
    (h : bs.make_patterns pos d maxT = Except.ok out) :
    ∀ p ∈ out, mkWord p = Except.ok ⟨p, d⟩ ∧
      ∃ a ∈ p, a.pos = pos ∧ a.letter = t0.letter := by
  have ht0 : t0.pos = pos := WF_lookup_pos hwf hl
  unfold BoardState.make_patterns at h
  by_cases hc : bs.contains pos = true
  · rw [if_pos hc, hl] at h
    injection h with h
    intro p hp
    rw [← h] at hp
    obtain ⟨lvl, hlvl, hplvl⟩ := List.mem_flatten.mp hp
    unfold makePatternsLevels at hlvl
    obtain ⟨r, _, hlvl⟩ := List.mem_map.mp hlvl
    rw [← hlvl] at hplvl
    have hmain : mkWord p = Except.ok ⟨p, d⟩ ∧ t0 ∈ p := by
      refine makePatternRec_ret_inv bs d
        (fun q => mkWord q = Except.ok ⟨q, d⟩ ∧ t0 ∈ q)
        (fun _ cur => cur ≠ [] ∧ List.Chain' (stepRel d) cur ∧ t0 ∈ cur)
        ?_ ?_ ?_ ?_ ?_ (recFuel bs maxT) (Int.ofNat r) [t0] ⟨[], []⟩
        ⟨List.cons_ne_nil t0 [], List.chain'_singleton t0, List.mem_singleton_self t0⟩
        (by simp) p hplvl
      · rintro rm cur tl ⟨hne, hch, hmem⟩ hfl
        have htl : tl.pos = frontLeft d cur := WF_lookup_pos hwf hfl
        refine ⟨List.cons_ne_nil tl cur, ?_, List.mem_cons_of_mem _ hmem⟩
        match cur, hne with
        | hd :: tl2, _ =>
          refine List.chain'_cons.mpr ⟨?_, hch⟩
          have hfl2 : frontLeft d (hd :: tl2) =
              (hd.pos.1 - (Dir.step d).1, hd.pos.2 - (Dir.step d).2) := rfl
          rw [hfl2] at htl
          unfold stepRel
          rw [htl]
          exact Prod.ext (by simp) (by simp)
      · rintro rm cur tr ⟨hne, hch, hmem⟩ _ hfr
        have htr : tr.pos = frontRight d cur := WF_lookup_pos hwf hfr
        refine ⟨by simp, ?_, List.mem_append_left _ hmem⟩
        rcases hgl : cur.getLast? with _ | last
        · exact absurd (List.getLast?_eq_none_iff.mp hgl) hne
        · refine List.chain'_append.mpr ⟨hch, List.chain'_singleton tr, ?_⟩
          intro x hx y hy
          rw [hgl, Option.mem_def] at hx
          rw [List.head?_cons, Option.mem_def] at hy
          have hx2 : x = last := (Option.some_inj.mp hx).symm
          have hy2 : y = tr := (Option.some_inj.mp hy).symm
          rw [hx2, hy2]
          unfold stepRel
          rw [htr]
          unfold frontRight
          rw [hgl]
      · rintro rm cur ⟨hne, hch, hmem⟩ _ _ _
        refine ⟨List.cons_ne_nil _ cur, ?_, List.mem_cons_of_mem _ hmem⟩
        match cur, hne with
        | hd :: tl2, _ =>
          refine List.chain'_cons.mpr ⟨?_, hch⟩
          unfold stepRel
          show hd.pos = ((frontLeft d (hd :: tl2)).1 + (Dir.step d).1,
            (frontLeft d (hd :: tl2)).2 + (Dir.step d).2)
          have hfl2 : frontLeft d (hd :: tl2) =
              (hd.pos.1 - (Dir.step d).1, hd.pos.2 - (Dir.step d).2) := rfl
          rw [hfl2]
          exact Prod.ext (by simp) (by simp)
      · rintro rm cur ⟨hne, hch, hmem⟩ _ _ _
        refine ⟨by simp, ?_, List.mem_append_left _ hmem⟩
        rcases hgl : cur.getLast? with _ | last
        · exact absurd (List.getLast?_eq_none_iff.mp hgl) hne
        · refine List.chain'_append.mpr ⟨hch, List.chain'_singleton _, ?_⟩
          intro x hx y hy
          rw [hgl, Option.mem_def] at hx
          rw [List.head?_cons, Option.mem_def] at hy
          have hx2 : x = last := (Option.some_inj.mp hx).symm
          have hy2 : y = (⟨frontRight d cur, '_'⟩ : BoardTile) :=
            (Option.some_inj.mp hy).symm
          rw [hx2, hy2]
          unfold stepRel
          show frontRight d cur =
            (last.pos.1 + (Dir.step d).1, last.pos.2 + (Dir.step d).2)
          unfold frontRight
          rw [hgl]
      · rintro cur ⟨_, hch, hmem⟩ hlen _
        exact ⟨mkWord_of_chain d cur hlen hch, hmem⟩
    exact ⟨hmain.1, t0, hmain.2, ht0, rfl⟩
  · rw [if_neg hc] at h
    exact Except.noConfusion h

/-- Single-tile board used for the claim C9 witness. -/
def bsNine : BoardState := ⟨3, 3, [((0, 1), some ⟨(0, 1), 'd'⟩)]⟩

theorem claim_C9_witness :
    WF bsNine ∧
    (∀ p ∈ [[⟨(0, 0), '_'⟩, ⟨(0, 1), 'd'⟩], [⟨(0, 1), 'd'⟩, ⟨(0, 2), '_'⟩]],
      mkWord p = Except.ok ⟨p, Dir.down⟩ ∧
        ∃ a ∈ p, a.pos = ((0 : Int), (1 : Int)) ∧ a.letter = 'd') := by
  have hwf : WF bsNine := by
    constructor
    · simp [bsNine]
    · intro e he
      simp [bsNine] at he
      simp [he, entryOK]
  refine ⟨hwf, ?_⟩
  have := claim_C9 bsNine (0, 1) Dir.down 2 ⟨(0, 1), 'd'⟩
    [[⟨(0, 0), '_'⟩, ⟨(0, 1), 'd'⟩], [⟨(0, 1), 'd'⟩, ⟨(0, 2), '_'⟩]]
    hwf (by decide) (by rfl)
  intro p hp
  obtain ⟨h1, a, ha, ha2, ha3⟩ := this p hp
  exact ⟨h1, a, ha, ha2, by rw [ha3]⟩

/-! ### Claim C10: budget 1 -/

/-- C10 (amended): on a board none of whose stored tiles carries the
placeholder letter, `make_patterns` with a tile budget of 1 returns the
empty list: the only budget level is 0, absorbing existing tiles adds no
placeholder, and placeholder branches drive the remaining budget negative,
so the emission condition is never met. -/
theorem claim_C10 (bs : BoardState) (pos : Pos) (d : Dir) (t0 : BoardTile)
    (hc : bs.contains pos = true)
    (hl : lookupKey bs.board pos = some (some t0))
    (hno : ∀ e ∈ bs.board, ∀ t, e.2 = some t → t.letter ≠ '_') :
    bs.make_patterns pos d 1 = Except.ok [] := by
  unfold BoardState.make_patterns
  rw [if_pos hc, hl]
  have hempty : ∀ p ∈ (makePatternRec bs d (recFuel bs 1) (Int.ofNat 0) [t0]
      ⟨[], []⟩).ret, False := by
    refine makePatternRec_ret_inv bs d (fun _ => False)
      (fun rm cur => rm ≤ 0 ∧ ('_' ∈ letters cur → rm < 0))
      ?_ ?_ ?_ ?_ ?_ (recFuel bs 1) (Int.ofNat 0) [t0] ⟨[], []⟩
      ⟨le_refl 0, ?_⟩ (by simp)
    · rintro rm cur tl ⟨h1, h2⟩ hfl
      refine ⟨h1, fun hmem => ?_⟩
      rcases List.mem_cons.mp hmem with heq | hmem2
      · exact absurd heq.symm (hno _ (lookupKey_mem hfl) tl rfl)
      · exact h2 hmem2
    · rintro rm cur tr ⟨h1, h2⟩ _ hfr
      refine ⟨h1, fun hmem => ?_⟩
      unfold letters at hmem
      rw [List.map_append] at hmem
      rcases List.mem_append.mp hmem with hmem2 | heq
      · exact h2 hmem2
      · exact absurd (List.mem_singleton.mp heq).symm
          (hno _ (lookupKey_mem hfr) tr rfl)
    · rintro rm cur ⟨h1, _⟩ _ _ _
      exact ⟨by omega, fun _ => by omega⟩
    · rintro rm cur ⟨h1, _⟩ _ _ _
      exact ⟨by omega, fun _ => by omega⟩
    · rintro cur ⟨_, h2⟩ _ hany
      obtain ⟨t, htmem, hteq⟩ := List.any_eq_true.mp hany
      have : '_' ∈ letters cur :=
        List.mem_map.mpr ⟨t, htmem, (of_decide_eq_true hteq).symm ▸ rfl⟩
      exact absurd (h2 this) (by omega)
    · intro hmem
      exfalso
      unfold letters at hmem
      rcases List.mem_map.mp hmem with ⟨t, htmem, hteq⟩
      rw [List.mem_singleton.mp htmem] at hteq
      exact hno _ (lookupKey_mem hl) t0 rfl hteq
  have hnil : (makePatternRec bs d (recFuel bs 1) (Int.ofNat 0) [t0]
      ⟨[], []⟩).ret = [] := by
    rcases hres : (makePatternRec bs d (recFuel bs 1) (Int.ofNat 0) [t0]
        ⟨[], []⟩).ret with _ | ⟨q, qs⟩
    · rfl
    · exact absurd (hres ▸ List.mem_cons_self q qs) (fun hq => hempty q hq)
  show Except.ok (makePatternsLevels bs t0 d 1).flatten = Except.ok []
  unfold makePatternsLevels
  rw [(by rfl : List.range 1 = [0])]
  simp only [List.map_cons, List.map_nil, List.flatten_cons, List.flatten_nil,
    List.append_nil]
  rw [hnil]

/-- Board holding a tile whose letter is literally the placeholder. -/
def bsTen : BoardState :=
  ⟨4, 4, [((0, 0), some ⟨(0, 0), 'a'⟩), ((1, 0), some ⟨(1, 0), '_'⟩)]⟩

/-- C10 counterexample: with a stored tile whose letter is '_', budget 1 is
not empty — the budget-0 level absorbs the placeholder-lettered tile and
emits the pattern. -/
theorem claim_C10_counterexample :
    bsTen.make_patterns (0, 0) Dir.across 1 =
      Except.ok [[⟨(0, 0), 'a'⟩, ⟨(1, 0), '_'⟩]] ∧
    ¬ bsTen.make_patterns (0, 0) Dir.across 1 = Except.ok [] := by
  constructor
  · rfl
  · intro h
    rw [(by rfl : bsTen.make_patterns (0, 0) Dir.across 1 =
      Except.ok [[⟨(0, 0), 'a'⟩, ⟨(1, 0), '_'⟩]])] at h
    injection h with h
    exact List.noConfusion h

/-- Ordinary single-letter board for the claim C10 witness. -/
def bsTenW : BoardState := ⟨3, 3, [((1, 1), some ⟨(1, 1), 'b'⟩)]⟩

theorem claim_C10_witness :
    bsTenW.contains (1, 1) = true ∧
    bsTenW.make_patterns (1, 1) Dir.across 1 = Except.ok [] := by
  refine ⟨by decide, ?_⟩
  refine claim_C10 bsTenW (1, 1) Dir.across ⟨(1, 1), 'b'⟩ (by decide) (by decide) ?_
  intro e he t ht
  simp only [bsTenW] at he
  rw [List.mem_singleton.mp he] at ht
  injection ht with ht
  rw [← ht]
  decide

/-! ### The intersection validator (`__get_intersecting_word_for_pos`) -/

/-- Stable insertion used to model Python's stable `sorted(. , key=...)`. -/
def insertByKey {α : Type} (key : α → Int) (x : α) : List α → List α
  | [] => [x]
  | y :: ys => if key x ≤ key y then x :: y :: ys else y :: insertByKey key x ys

/-- Python `sorted(lst, key=...)`: a stable sort, ascending in the key. -/
def sortByKey {α : Type} (key : α → Int) : List α → List α
  | [] => []
  | x :: xs => insertByKey key x (sortByKey key xs)

/-- The sort key `t.pos[0 if direction == ACROSS else 1]`. -/
def posKey : Dir → BoardTile → Int
  | .across, t => t.pos.1
  | .down, t => t.pos.2

/-- The cell `n` steps from `q` along the vector `e`. -/
def offsetPos (q e : Pos) (n : Int) : Pos := (q.1 + n * e.1, q.2 + n * e.2)

/-- The while-loop of `__get_intersecting_word_for_pos`: step repeatedly by
`e`, collecting stored values while the cell is on-board and the key is
present.  Fuel bounds the loop; `collectRun_short` shows the chosen fuel is
never exhausted. -/
def collectRun (bs : BoardState) (e : Pos) : Nat → Pos → List (Option BoardTile)
  | 0, _ => []
  | fuel + 1, cur =>
    match lookupKey bs.board (cur.1 + e.1, cur.2 + e.2) with
    | some v =>
      if bs.contains (cur.1 + e.1, cur.2 + e.2) = true then
        v :: collectRun bs e fuel (cur.1 + e.1, cur.2 + e.2)
      else []
    | none => []

/-- Fuel for the collection loops: one more than any on-board run can be. -/
def runFuel (bs : BoardState) : Nat := bs.width + bs.height + 2

/-- Turns a list of stored values into tiles; `none` models the Python crash
(`AttributeError`) hit when a collected value is `None`. -/
def allSome {α : Type} : List (Option α) → Option (List α)
  | [] => some []
  | none :: _ => none
  | some x :: rest => (allSome rest).map (fun l => x :: l)

/-- `BoardState.__get_intersecting_word_for_pos`: fan outward from the tile
along `d` in both directions, collecting placed tiles; a run of length one
means no cross word; otherwise the run is sorted by the axis coordinate. -/
def BoardState.getIntWordForPos (bs : BoardState) (t : BoardTile) (d : Dir) :
    Except String (Option (List BoardTile)) :=
  if bs.contains t.pos = true then
    match allSome (some t :: (collectRun bs (Dir.step d) (runFuel bs) t.pos ++
        collectRun bs (Dir.oppStep d) (runFuel bs) t.pos)) with
    | some tiles =>
      if tiles.length = 1 then .ok none
      else .ok (some (sortByKey (posKey d) tiles))
    | none => .error "attribute error"
  else .error "invalid position"

/-- The loop of `get_intersecting_words`: one cross word (as its letter
sequence) per tile that has orthogonal neighbors, in tile order; an
exception aborts the whole computation. -/
def intWordsGo (bs : BoardState) (d : Dir) : List BoardTile → Except String (List (List Char))
  | [] => .ok []
  | t :: rest =>
    match bs.getIntWordForPos t d with
    | .error e => .error e
    | .ok none => intWordsGo bs d rest
    | .ok (some tiles) =>
      match intWordsGo bs d rest with
      | .error e => .error e
      | .ok ws => .ok (letters tiles :: ws)

/-- `BoardState.get_intersecting_words`: cross words along the axis
orthogonal to the word's own direction. -/
def BoardState.get_intersecting_words (bs : BoardState) (w : Wrd) :
    Except String (List (List Char)) :=
  intWordsGo bs w.dir.orthogonal w.tiles

/-- The cross word computed for one tile, as an optional letter sequence
(`none`: no neighbors, or a failure). -/
def crossFor (bs : BoardState) (d : Dir) (t : BoardTile) : Option (List Char) :=
  match bs.getIntWordForPos t d with
  | .ok (some tiles) => some (letters tiles)
  | _ => none

/-- Spec-side description of a maximal orthogonal half-run: the `i`-th
collected tile sits `i+1` steps from the base, on-board and stored, and the
cell one past the run is off-board or empty. -/
def RunSpec (bs : BoardState) (e : Pos) (base : Pos) (run : List BoardTile) : Prop :=
  (∀ i (hi : i < run.length),
    bs.contains (offsetPos base e (Int.ofNat (i + 1))) = true ∧
    lookupKey bs.board (offsetPos base e (Int.ofNat (i + 1))) =
      some (some (run.get ⟨i, hi⟩)) ∧
    (run.get ⟨i, hi⟩).pos = offsetPos base e (Int.ofNat (i + 1))) ∧
  ¬(bs.contains (offsetPos base e (Int.ofNat (run.length + 1))) = true ∧
    hasKey bs.board (offsetPos base e (Int.ofNat (run.length + 1))) = true)

theorem insertByKey_perm {α : Type} (key : α → Int) (x : α) :
    ∀ l, List.Perm (insertByKey key x l) (x :: l)
  | [] => List.Perm.refl _
  | y :: ys => by
    unfold insertByKey
    by_cases h : key x ≤ key y
    · rw [if_pos h]
    · rw [if_neg h]
      exact List.Perm.trans (List.Perm.cons y (insertByKey_perm key x ys))
        (List.Perm.swap x y ys)

theorem sortByKey_perm {α : Type} (key : α → Int) :
    ∀ l, List.Perm (sortByKey key l) l
  | [] => List.Perm.refl _
  | x :: xs =>
    List.Perm.trans (insertByKey_perm key x (sortByKey key xs))
      (List.Perm.cons x (sortByKey_perm key xs))

theorem insertByKey_sorted {α : Type} (key : α → Int) (x : α) :
    ∀ l, l.Pairwise (fun a b => key a ≤ key b) →
      (insertByKey key x l).Pairwise (fun a b => key a ≤ key b)
  | [], _ => by simp [insertByKey]
  | y :: ys, h => by
    unfold insertByKey
    rcases List.pairwise_cons.mp h with ⟨hy, hys⟩
    by_cases hxy : key x ≤ key y
    · rw [if_pos hxy]
      refine List.pairwise_cons.mpr ⟨?_, h⟩
      intro b hb
      rcases List.mem_cons.mp hb with rfl | hmem
      · exact hxy
      · exact le_trans hxy (hy b hmem)
    · rw [if_neg hxy]
      refine List.pairwise_cons.mpr ⟨?_, insertByKey_sorted key x ys hys⟩
      intro b hb
      rcases List.mem_cons.mp ((insertByKey_perm key x ys).mem_iff.mp hb)
        with rfl | hmem
      · exact le_of_not_le hxy
      · exact hy b hmem

theorem sortByKey_sorted {α : Type} (key : α → Int) :
    ∀ l, (sortByKey key l).Pairwise (fun a b => key a ≤ key b)
  | [] => List.Pairwise.nil
  | x :: xs => insertByKey_sorted key x (sortByKey key xs) (sortByKey_sorted key xs)

theorem sorted_perm_eq {α : Type} (key : α → Int) :
    ∀ l₂ l₁, List.Perm l₁ l₂ →
      l₁.Pairwise (fun a b => key a ≤ key b) →
      l₂.Pairwise (fun a b => key a < key b) → l₁ = l₂ := by
  intro l₂
  induction l₂ with
  | nil =>
    intro l₁ hp _ _
    exact hp.eq_nil
  | cons b t₂ ih =>
    intro l₁ hp hs₁ hs₂
    rcases l₁ with _ | ⟨a, t₁⟩
    · have := hp.length_eq
      simp at this
    · have hab : a = b := by
        by_contra hne
        have hbmem : b ∈ a :: t₁ := hp.mem_iff.mpr (List.mem_cons_self b t₂)
        have hamem : a ∈ b :: t₂ := hp.mem_iff.mp (List.mem_cons_self a t₁)
        have hb1 : b ∈ t₁ := by
          rcases List.mem_cons.mp hbmem with h | h
          · exact absurd h.symm hne
          · exact h
        have ha2 : a ∈ t₂ := by
          rcases List.mem_cons.mp hamem with h | h
          · exact absurd h hne
          · exact h
        have h1 : key a ≤ key b := (List.pairwise_cons.mp hs₁).1 b hb1
        have h2 : key b < key a := (List.pairwise_cons.mp hs₂).1 a ha2
        omega
      subst hab
      rw [ih t₁ hp.cons_inv (List.pairwise_cons.mp hs₁).2
        (List.pairwise_cons.mp hs₂).2]

theorem pairwise_lt_of_key {α : Type} (key : α → Int) (l : List α) (c : Int)
    (h : ∀ i (hi : i < l.length), key (l.get ⟨i, hi⟩) = c + Int.ofNat i) :
    l.Pairwise (fun a b => key a < key b) := by
  rw [List.pairwise_iff_get]
  intro i j hij
  rw [h i.1 i.2, h j.1 j.2]
  have hc : ∀ n : Nat, Int.ofNat n = (n : Int) := fun n => rfl
  rw [hc, hc]
  have : i.1 < j.1 := hij
  omega

theorem offsetPos_one (q e : Pos) : offsetPos q e (Int.ofNat 1) = (q.1 + e.1, q.2 + e.2) := by
  unfold offsetPos
  exact Prod.ext (by simp) (by simp)

theorem offsetPos_shift (q e : Pos) (n : Int) :
    offsetPos (q.1 + e.1, q.2 + e.2) e n = offsetPos q e (n + 1) := by
  unfold offsetPos
  exact Prod.ext (by ring_nf) (by ring_nf)

theorem intOfNat_succ (n : Nat) : Int.ofNat n + 1 = Int.ofNat (n + 1) := rfl

theorem collectRun_spec (bs : BoardState) (hwf : WF bs) (e : Pos) :
    ∀ fuel q, ∃ run : List BoardTile,
      allSome (collectRun bs e fuel q) = some run ∧
      run.length = (collectRun bs e fuel q).length ∧
      (∀ i (hi : i < run.length),
        bs.contains (offsetPos q e (Int.ofNat (i + 1))) = true ∧
        lookupKey bs.board (offsetPos q e (Int.ofNat (i + 1))) =
          some (some (run.get ⟨i, hi⟩)) ∧
        (run.get ⟨i, hi⟩).pos = offsetPos q e (Int.ofNat (i + 1))) ∧
      (run.length < fuel →
        ¬(bs.contains (offsetPos q e (Int.ofNat (run.length + 1))) = true ∧
          hasKey bs.board (offsetPos q e (Int.ofNat (run.length + 1))) = true)) := by
  intro fuel
  induction fuel with
  | zero =>
    intro q
    refine ⟨[], rfl, rfl, ?_, ?_⟩
    · intro i hi
      simp at hi
    · intro h
      simp at h
  | succ fuel ih =>
    intro q
    rcases hl : lookupKey bs.board (q.1 + e.1, q.2 + e.2) with _ | v
    · refine ⟨[], ?_, ?_, ?_, ?_⟩
      · simp only [collectRun, hl]
        rfl
      · simp only [collectRun, hl]
        rfl
      · intro i hi
        simp at hi
      · intro _
        rintro ⟨_, hk⟩
        rw [List.length_nil, Nat.zero_add, offsetPos_one] at hk
        unfold hasKey at hk
        rw [hl] at hk
        simp at hk
    · by_cases hc : bs.contains (q.1 + e.1, q.2 + e.2) = true
      · have hv : ∃ t, v = some t ∧ t.pos = (q.1 + e.1, q.2 + e.2) := by
          have := hwf.2 _ (lookupKey_mem hl)
          unfold entryOK at this
          rcases v with _ | t
          · simp at this
          · exact ⟨t, rfl, by simpa using this⟩
        obtain ⟨t, rfl, htp⟩ := hv
        obtain ⟨run2, hall, hlen, helem, hbound⟩ := ih (q.1 + e.1, q.2 + e.2)
        refine ⟨t :: run2, ?_, ?_, ?_, ?_⟩
        · simp only [collectRun, hl, if_pos hc, allSome, hall, Option.map]
        · simp only [collectRun, hl, if_pos hc, List.length_cons, hlen]
        · intro i hi
          match i with
          | 0 =>
            refine ⟨?_, ?_, ?_⟩
            · rw [offsetPos_one]
              exact hc
            · rw [offsetPos_one]
              exact hl
            · rw [offsetPos_one]
              exact htp
          | i + 1 =>
            have hi2 : i < run2.length := by
              simpa using Nat.lt_of_succ_lt_succ hi
            obtain ⟨h1, h2, h3⟩ := helem i hi2
            rw [offsetPos_shift, intOfNat_succ] at h1 h2 h3
            exact ⟨h1, h2, h3⟩
        · intro hlt
          rw [List.length_cons]
          rw [List.length_cons] at hlt
          have hlt2 : run2.length < fuel := Nat.lt_of_succ_lt_succ hlt
          have := hbound hlt2
          rw [offsetPos_shift, intOfNat_succ] at this
          exact this
      · refine ⟨[], ?_, ?_, ?_, ?_⟩
        · simp only [collectRun, hl, if_neg hc]
          rfl
        · simp only [collectRun, hl, if_neg hc]
          rfl
        · intro i hi
          simp at hi
        · intro _
          rintro ⟨hcc, _⟩
          rw [List.length_nil, Nat.zero_add, offsetPos_one] at hcc
          exact hc hcc

theorem contains_iff (bs : BoardState) (p : Pos) :
    bs.contains p = true ↔
      0 ≤ p.1 ∧ p.1 ≤ (bs.width : Int) ∧ 0 ≤ p.2 ∧ p.2 ≤ (bs.height : Int) := by
  simp [BoardState.contains, and_assoc]

theorem run_length_lt (bs : BoardState) (e q : Pos) (hq : bs.contains q = true)
    (he : e = (1, 0) ∨ e = (-1, 0) ∨ e = (0, 1) ∨ e = (0, -1)) (n : Nat)
    (h : 0 < n → bs.contains (offsetPos q e (Int.ofNat n)) = true) :
    n < runFuel bs := by
  by_cases hn : 0 < n
  · have hofn : Int.ofNat n = (n : Int) := rfl
    rw [contains_iff] at hq
    have hcont := h hn
    rw [contains_iff] at hcont
    rcases he with rfl | rfl | rfl | rfl <;>
    · simp only [offsetPos, hofn, mul_one, mul_zero, mul_neg, mul_neg_one,
        add_zero] at hcont
      unfold runFuel
      omega
  · unfold runFuel
    omega

theorem allSome_append {α : Type} :
    ∀ (l1 l2 : List (Option α)) (r1 r2 : List α),
      allSome l1 = some r1 → allSome l2 = some r2 →
      allSome (l1 ++ l2) = some (r1 ++ r2) := by
  intro l1
  induction l1 with
  | nil =>
    intro l2 r1 r2 h1 h2
    obtain rfl : r1 = [] := by
      injection h1 with h1
      exact h1.symm
    simpa using h2
  | cons v rest ih =>
    intro l2 r1 r2 h1 h2
    rcases v with _ | x
    · exact Option.noConfusion h1
    · simp only [allSome] at h1
      rcases hr : allSome rest with _ | rr
      · rw [hr] at h1
        exact Option.noConfusion h1
      · rw [hr] at h1
        simp only [Option.map] at h1
        obtain rfl : x :: rr = r1 := by injection h1
        have hx := ih l2 rr r2 hr h2
        show (allSome (rest ++ l2)).map (fun l => x :: l) = some (x :: (rr ++ r2))
        rw [hx]
        rfl

/-- The coordinate a direction sorts by, on raw positions. -/
def baseKey : Dir → Pos → Int
  | .across, p => p.1
  | .down, p => p.2

theorem posKey_eq_baseKey (d : Dir) (t : BoardTile) : posKey d t = baseKey d t.pos := by
  cases d <;> rfl

theorem baseKey_offset_step (d : Dir) (p : Pos) (n : Int) :
    baseKey d (offsetPos p (Dir.step d) n) = baseKey d p + n := by
  cases d <;> simp [baseKey, offsetPos, Dir.step]

theorem baseKey_offset_opp (d : Dir) (p : Pos) (n : Int) :
    baseKey d (offsetPos p (Dir.oppStep d) n) = baseKey d p - n := by
  cases d <;> simp [baseKey, offsetPos, Dir.oppStep, Dir.step] <;> ring

theorem pairwise_gt_of_key {α : Type} (key : α → Int) (l : List α) (c : Int)
    (h : ∀ i (hi : i < l.length), key (l.get ⟨i, hi⟩) = c - Int.ofNat i) :
    l.Pairwise (fun a b => key b < key a) := by
  rw [List.pairwise_iff_get]
  intro i j hij
  rw [h i.1 i.2, h j.1 j.2]
  have hc : ∀ n : Nat, Int.ofNat n = (n : Int) := fun n => rfl
  rw [hc, hc]
  have : i.1 < j.1 := hij
  omega

theorem getIntWordForPos_spec (bs : BoardState) (hwf : WF bs) (d : Dir)
    (t : BoardTile) (hq : bs.contains t.pos = true) :
    ∃ front back : List BoardTile,
      RunSpec bs (Dir.step d) t.pos front ∧
      RunSpec bs (Dir.oppStep d) t.pos back ∧
      bs.getIntWordForPos t d =
        Except.ok (if front = [] ∧ back = [] then none
          else some (back.reverse ++ t :: front)) := by
  have hestep : Dir.step d = (1, 0) ∨ Dir.step d = (-1, 0) ∨
      Dir.step d = (0, 1) ∨ Dir.step d = (0, -1) := by
    cases d
    · exact Or.inl rfl
    · exact Or.inr (Or.inr (Or.inl rfl))
  have heopp : Dir.oppStep d = (1, 0) ∨ Dir.oppStep d = (-1, 0) ∨
      Dir.oppStep d = (0, 1) ∨ Dir.oppStep d = (0, -1) := by
    cases d
    · exact Or.inr (Or.inl rfl)
    · exact Or.inr (Or.inr (Or.inr rfl))
  obtain ⟨front, hallF, hlenF, helemF, hboundF⟩ :=
    collectRun_spec bs hwf (Dir.step d) (runFuel bs) t.pos
  obtain ⟨back, hallB, hlenB, helemB, hboundB⟩ :=
    collectRun_spec bs hwf (Dir.oppStep d) (runFuel bs) t.pos
  have hshortF : front.length < runFuel bs := by
    refine run_length_lt bs (Dir.step d) t.pos hq hestep front.length ?_
    intro hpos
    have hrw : front.length - 1 + 1 = front.length := by omega
    have := (helemF (front.length - 1) (by omega)).1
    rw [hrw] at this
    exact this
  have hshortB : back.length < runFuel bs := by
    refine run_length_lt bs (Dir.oppStep d) t.pos hq heopp back.length ?_
    intro hpos
    have hrw : back.length - 1 + 1 = back.length := by omega
    have := (helemB (back.length - 1) (by omega)).1
    rw [hrw] at this
    exact this
  have hrsF : RunSpec bs (Dir.step d) t.pos front := ⟨helemF, hboundF hshortF⟩
  have hrsB : RunSpec bs (Dir.oppStep d) t.pos back := ⟨helemB, hboundB hshortB⟩
  refine ⟨front, back, hrsF, hrsB, ?_⟩
  have hall : allSome (some t :: (collectRun bs (Dir.step d) (runFuel bs) t.pos ++
      collectRun bs (Dir.oppStep d) (runFuel bs) t.pos)) =
      some (t :: (front ++ back)) := by
    have happ := allSome_append _ _ front back hallF hallB
    show (allSome (collectRun bs (Dir.step d) (runFuel bs) t.pos ++
      collectRun bs (Dir.oppStep d) (runFuel bs) t.pos)).map (fun l => t :: l) =
      some (t :: (front ++ back))
    rw [happ]
    rfl
  unfold BoardState.getIntWordForPos
  rw [if_pos hq, hall]
  by_cases hempty : front = [] ∧ back = []
  · obtain ⟨rfl, rfl⟩ := hempty
    simp
  · have hlen1 : ¬ (t :: (front ++ back)).length = 1 := by
      simp only [List.length_cons, List.length_append]
      rcases (not_and_or.mp hempty) with h | h
      · have : front.length ≠ 0 := fun hh => h (List.eq_nil_of_length_eq_zero hh)
        omega
      · have : back.length ≠ 0 := fun hh => h (List.eq_nil_of_length_eq_zero hh)
        omega
    rw [if_neg hempty]
    simp only [hlen1, if_false]
    have hsort : sortByKey (posKey d) (t :: (front ++ back)) =
        back.reverse ++ t :: front := by
      refine sorted_perm_eq (posKey d) _ _ ?_ ?_ ?_
      · refine (sortByKey_perm (posKey d) _).trans ?_
        show List.Perm ((t :: front) ++ back) (back.reverse ++ t :: front)
        refine (List.perm_append_comm).trans ?_
        exact (List.reverse_perm back).symm.append_right (t :: front)
      · exact sortByKey_sorted (posKey d) _
      · refine List.pairwise_append.mpr ⟨?_, ?_, ?_⟩
        · rw [List.pairwise_reverse]
          refine pairwise_gt_of_key (posKey d) back (baseKey d t.pos - 1) ?_
          intro i hi
          rw [posKey_eq_baseKey, (helemB i hi).2.2, baseKey_offset_opp]
          have hc : ∀ n : Nat, Int.ofNat n = (n : Int) := fun n => rfl
          rw [hc, hc]
          push_cast
          ring
        · refine List.pairwise_cons.mpr ⟨?_, ?_⟩
          · intro b hb
            obtain ⟨i, hgi⟩ := List.mem_iff_get.mp hb
            rw [posKey_eq_baseKey, posKey_eq_baseKey, ← hgi,
              (helemF i.1 i.2).2.2, baseKey_offset_step]
            have hc : ∀ n : Nat, Int.ofNat n = (n : Int) := fun n => rfl
            rw [hc]
            push_cast
            omega
          · refine pairwise_lt_of_key (posKey d) front (baseKey d t.pos + 1) ?_
            intro i hi
            rw [posKey_eq_baseKey, (helemF i hi).2.2, baseKey_offset_step]
            have hc : ∀ n : Nat, Int.ofNat n = (n : Int) := fun n => rfl
            rw [hc, hc]
            push_cast
            ring
        · intro a ha b hb
          obtain ⟨j, hgj⟩ := List.mem_iff_get.mp (List.mem_reverse.mp ha)
          have hka : posKey d a = baseKey d t.pos - Int.ofNat (j.1 + 1) := by
            rw [← hgj, posKey_eq_baseKey, (helemB j.1 j.2).2.2, baseKey_offset_opp]
          have hkb : baseKey d t.pos ≤ posKey d b := by
            rcases List.mem_cons.mp hb with rfl | hbf
            · rw [posKey_eq_baseKey]
            · obtain ⟨i, hgi⟩ := List.mem_iff_get.mp hbf
              rw [← hgi, posKey_eq_baseKey, (helemF i.1 i.2).2.2,
                baseKey_offset_step]
              have hc : ∀ n : Nat, Int.ofNat n = (n : Int) := fun n => rfl
              rw [hc]
              push_cast
              omega
          have hc : ∀ n : Nat, Int.ofNat n = (n : Int) := fun n => rfl
          rw [hc] at hka
          omega
    rw [hsort]

theorem intWordsGo_filterMap (bs : BoardState) (d : Dir) :
    ∀ l, (∀ t ∈ l, ∃ r, bs.getIntWordForPos t d = Except.ok r) →
      intWordsGo bs d l = Except.ok (l.filterMap (crossFor bs d)) := by
  intro l
  induction l with
  | nil =>
    intro _
    rfl
  | cons t rest ih =>
    intro hall
    obtain ⟨r, hr⟩ := hall t (List.mem_cons_self t rest)
    have hrest := ih (fun s hs => hall s (List.mem_cons_of_mem _ hs))
    rcases r with _ | tiles
    · have hcf : crossFor bs d t = none := by
        unfold crossFor
        rw [hr]
      simp only [intWordsGo, hr, hrest, List.filterMap_cons, hcf]
    · have hcf : crossFor bs d t = some (letters tiles) := by
        unfold crossFor
        rw [hr]
      simp only [intWordsGo, hr, hrest, List.filterMap_cons, hcf]

/-- C4: for a fully-lettered candidate word along its axis, the intersection
computation succeeds and returns exactly one letter string per tile whose
orthogonal run has length greater than one; the string is the letters of the
maximal contiguous orthogonal run through the tile (collected outward until
an empty or off-board cell), arranged in increasing order of the orthogonal
axis coordinate; tiles with no orthogonal neighbor contribute nothing, so a
word with no orthogonal neighbors yields the empty list. -/
theorem claim_C4 (bs : BoardState) (w : Wrd) (hwf : WF bs)
    (hword : mkWord w.tiles = Except.ok w)
    (hon : ∀ t ∈ w.tiles, bs.contains t.pos = true) :
    ∃ out, bs.get_intersecting_words w = Except.ok out ∧
      out = w.tiles.filterMap (crossFor bs w.dir.orthogonal) ∧
      ∀ t ∈ w.tiles, ∃ front back : List BoardTile,
        RunSpec bs (Dir.step w.dir.orthogonal) t.pos front ∧
        RunSpec bs (Dir.oppStep w.dir.orthogonal) t.pos back ∧
        crossFor bs w.dir.orthogonal t =
          (if front = [] ∧ back = [] then none
           else some (letters (back.reverse ++ t :: front))) := by
  have hspec : ∀ t ∈ w.tiles, ∃ front back : List BoardTile,
      RunSpec bs (Dir.step w.dir.orthogonal) t.pos front ∧
      RunSpec bs (Dir.oppStep w.dir.orthogonal) t.pos back ∧
      bs.getIntWordForPos t w.dir.orthogonal =
        Except.ok (if front = [] ∧ back = [] then none
          else some (back.reverse ++ t :: front)) :=
    fun t ht => getIntWordForPos_spec bs hwf w.dir.orthogonal t (hon t ht)
  have hok : ∀ t ∈ w.tiles, ∃ r,
      bs.getIntWordForPos t w.dir.orthogonal = Except.ok r := by
    intro t ht
    obtain ⟨front, back, _, _, heq⟩ := hspec t ht
    exact ⟨_, heq⟩
  refine ⟨w.tiles.filterMap (crossFor bs w.dir.orthogonal),
    intWordsGo_filterMap bs w.dir.orthogonal w.tiles hok, rfl, ?_⟩
  intro t ht
  obtain ⟨front, back, hf, hb, heq⟩ := hspec t ht
  refine ⟨front, back, hf, hb, ?_⟩
  unfold crossFor
  rw [heq]
  by_cases hfb : front = [] ∧ back = []
  · rw [if_pos hfb, if_pos hfb]
  · rw [if_neg hfb, if_neg hfb]

/-- Board with a vertical run used in the claim C4 witness. -/
def bsFour : BoardState :=
  ⟨4, 4, [((0, 0), some ⟨(0, 0), 'c'⟩), ((0, 1), some ⟨(0, 1), 'o'⟩)]⟩

/-- Candidate word "ca" across the top row of `bsFour`. -/
def wFour : Wrd := ⟨[⟨(0, 0), 'c'⟩, ⟨(1, 0), 'a'⟩], Dir.across⟩

theorem claim_C4_witness :
    WF bsFour ∧
    ∃ out, bsFour.get_intersecting_words wFour = Except.ok out ∧
      out = wFour.tiles.filterMap (crossFor bsFour wFour.dir.orthogonal) ∧
      ∀ t ∈ wFour.tiles, ∃ front back : List BoardTile,
        RunSpec bsFour (Dir.step wFour.dir.orthogonal) t.pos front ∧
        RunSpec bsFour (Dir.oppStep wFour.dir.orthogonal) t.pos back ∧
        crossFor bsFour wFour.dir.orthogonal t =
          (if front = [] ∧ back = [] then none
           else some (letters (back.reverse ++ t :: front))) := by
  have hwf : WF bsFour := by
    refine ⟨?_, by decide⟩
    refine List.pairwise_cons.mpr ⟨?_, List.pairwise_singleton _ _⟩
    intro e he
    rw [List.mem_singleton.mp he]
    decide
  exact ⟨hwf, claim_C4 bsFour wFour hwf (by rfl) (by decide)⟩

/-! ### The move-search orchestrator (`words_for_pos` / `get_best_words`) -/

/-- `TileList.get_pattern`: the joined letters, or `None` for an empty list
(single-character letters are always truthy). -/
def get_pattern (lst : List BoardTile) : Option (List Char) :=
  if lst.isEmpty then none else some (letters lst)

/-- One lexicon match filled into the pattern's positions and validated:
`Word([BoardTile(pat[i].pos, m[i]) ...])` followed by the cross-word check.
`none` means the candidate is discarded (an invalid cross word);
an error models a Python exception (`IndexError` on a short match, or an
exception from `Word`/`get_intersecting_words`).  The lexicon membership
test and the matcher are the external collaborators of the spec, passed in
as functions. -/
def candidateFor (bs : BoardState) (wordlist : List Char → Bool)
    (pat : List BoardTile) (m : List Char) : Except String (Option Wrd) :=
  if pat.length ≤ m.length then
    match mkWord (pat.zipWith (fun t c => ⟨t.pos, c⟩) m) with
    | .error e => .error e
    | .ok w =>
      match bs.get_intersecting_words w with
      | .error e => .error e
      | .ok ints =>
        if ints.any (fun s => !(wordlist s)) then .ok none else .ok (some w)
  else .error "IndexError"

/-- The inner loop of `words_for_pos` over the matches of one pattern. -/
def candidatesGo (bs : BoardState) (wordlist : List Char → Bool)
    (pat : List BoardTile) : List (List Char) → Except String (List Wrd)
  | [] => .ok []
  | m :: ms =>
    match candidateFor bs wordlist pat m with
    | .error e => .error e
    | .ok none => candidatesGo bs wordlist pat ms
    | .ok (some w) =>
      match candidatesGo bs wordlist pat ms with
      | .error e => .error e
      | .ok ws => .ok (w :: ws)

/-- The outer loop of `words_for_pos` over the generated patterns. -/
def patsGo (bs : BoardState) (wordlist : List Char → Bool)
    (matcher : Option (List Char) → List Char → List (List Char))
    (gutter : List Char) : List (List BoardTile) → Except String (List Wrd)
  | [] => .ok []
  | pat :: pats =>
    match candidatesGo bs wordlist pat (matcher (get_pattern pat) gutter) with
    | .error e => .error e
    | .ok ws =>
      match patsGo bs wordlist matcher gutter pats with
      | .error e => .error e
      | .ok rest => .ok (ws ++ rest)

/-- `words_for_pos`: generate the patterns for the anchor bounded by the
rack size, fill each with the external matcher's candidates, and keep those
whose cross words are all recognized. -/
def words_for_pos (bs : BoardState) (pos : Pos) (d : Dir)
    (wordlist : List Char → Bool) (gutter : List Char)
    (matcher : Option (List Char) → List Char → List (List Char)) :
    Except String (List Wrd) :=
  match bs.make_patterns pos d gutter.length with
  | .error e => .error e
  | .ok pats => patsGo bs wordlist matcher gutter pats

/-- The scan order of `get_best_words`: `(i, j)` for `i` in
`0 .. width - 1` and `j` in `0 .. height - 1`. -/
def anchorCoords (bs : BoardState) : List Pos :=
  ((List.range bs.width).map (fun (i : Nat) =>
    (List.range bs.height).map (fun (j : Nat) =>
      ((Int.ofNat i, Int.ofNat j) : Pos)))).flatten

/-- The loop of `get_best_words`: skip unoccupied cells, otherwise search
both axes and accumulate. -/
def gbwGo (bs : BoardState) (wordlist : List Char → Bool) (gutter : List Char)
    (matcher : Option (List Char) → List Char → List (List Char)) :
    List Pos → Except String (List Wrd)
  | [] => .ok []
  | p :: ps =>
    if hasKey bs.board p then
      match words_for_pos bs p Dir.across wordlist gutter matcher with
      | .error e => .error e
      | .ok ws1 =>
        match words_for_pos bs p Dir.down wordlist gutter matcher with
        | .error e => .error e
        | .ok ws2 =>
          match gbwGo bs wordlist gutter matcher ps with
          | .error e => .error e
          | .ok rest => .ok (ws1 ++ ws2 ++ rest)
    else gbwGo bs wordlist gutter matcher ps

/-- `get_best_words`: accumulate over the scanned anchors and sort ascending
by the external scorer. -/
def get_best_words (bs : BoardState) (gutter : List Char)
    (wordlist : List Char → Bool)
    (matcher : Option (List Char) → List Char → List (List Char))
    (score : Wrd → Int) : Except String (List Wrd) :=
  match gbwGo bs wordlist gutter matcher (anchorCoords bs) with
  | .error e => .error e
  | .ok acc => .ok (sortByKey score acc)

/-- The coordinates `get_best_words` actually searches: the occupied cells
among the scanned (strictly in-range) coordinates. -/
def strictAnchors (bs : BoardState) : List Pos :=
  (anchorCoords bs).filter (fun p => hasKey bs.board p)

/-- The candidate list one anchor contributes (empty on a failure). -/
def wfpValue (bs : BoardState) (p : Pos) (d : Dir) (wordlist : List Char → Bool)
    (gutter : List Char)
    (matcher : Option (List Char) → List Char → List (List Char)) : List Wrd :=
  match words_for_pos bs p d wordlist gutter matcher with
  | .ok ws => ws
  | .error _ => []

/-- Shared facts about generated patterns: length at least two, chained
along the axis, and (when all stored keys are on-board) all tiles
on-board. -/
theorem make_patterns_props (bs : BoardState) (pos : Pos) (d : Dir) (maxT : Nat)
    (t0 : BoardTile) (out : List (List BoardTile)) (hwf : WF bs)
    (hkeys : ∀ e ∈ bs.board, bs.contains e.1 = true)
    (hl : lookupKey bs.board pos = some (some t0))
    (h : bs.make_patterns pos d maxT = Except.ok out) :
    ∀ p ∈ out, 1 < p.length ∧ List.Chain' (stepRel d) p ∧
      ∀ a ∈ p, bs.contains a.pos = true := by
  unfold BoardState.make_patterns at h
  by_cases hc : bs.contains pos = true
  · rw [if_pos hc, hl] at h
    injection h with h
    intro p hp
    rw [← h] at hp
    obtain ⟨lvl, hlvl, hplvl⟩ := List.mem_flatten.mp hp
    unfold makePatternsLevels at hlvl
    obtain ⟨r, _, hlvl⟩ := List.mem_map.mp hlvl
    rw [← hlvl] at hplvl
    refine makePatternRec_ret_inv bs d
      (fun q => 1 < q.length ∧ List.Chain' (stepRel d) q ∧
        ∀ a ∈ q, bs.contains a.pos = true)
      (fun _ cur => cur ≠ [] ∧ List.Chain' (stepRel d) cur ∧
        ∀ a ∈ cur, bs.contains a.pos = true)
      ?_ ?_ ?_ ?_ ?_ (recFuel bs maxT) (Int.ofNat r) [t0] ⟨[], []⟩
      ⟨List.cons_ne_nil t0 [], List.chain'_singleton t0, ?_⟩
      (by simp) p hplvl
    · rintro rm cur tl ⟨hne, hch, hon⟩ hfl
      have htl : tl.pos = frontLeft d cur := WF_lookup_pos hwf hfl
      refine ⟨List.cons_ne_nil tl cur, ?_, ?_⟩
      · match cur, hne with
        | hd :: tl2, _ =>
          refine List.chain'_cons.mpr ⟨?_, hch⟩
          have hfl2 : frontLeft d (hd :: tl2) =
              (hd.pos.1 - (Dir.step d).1, hd.pos.2 - (Dir.step d).2) := rfl
          rw [hfl2] at htl
          unfold stepRel
          rw [htl]
          exact Prod.ext (by simp) (by simp)
      · intro a ha
        rcases List.mem_cons.mp ha with rfl | hmem
        · rw [htl]
          exact hkeys _ (lookupKey_mem hfl)
        · exact hon a hmem
    · rintro rm cur tr ⟨hne, hch, hon⟩ _ hfr
      have htr : tr.pos = frontRight d cur := WF_lookup_pos hwf hfr
      refine ⟨by simp, ?_, ?_⟩
      · rcases hgl : cur.getLast? with _ | last
        · exact absurd (List.getLast?_eq_none_iff.mp hgl) hne
        · refine List.chain'_append.mpr ⟨hch, List.chain'_singleton tr, ?_⟩
          intro x hx y hy
          rw [hgl, Option.mem_def] at hx
          rw [List.head?_cons, Option.mem_def] at hy
          have hx2 : x = last := (Option.some_inj.mp hx).symm
          have hy2 : y = tr := (Option.some_inj.mp hy).symm
          rw [hx2, hy2]
          unfold stepRel
          rw [htr]
          unfold frontRight
          rw [hgl]
      · intro a ha
        rcases List.mem_append.mp ha with hmem | hmem
        · exact hon a hmem
        · rw [List.mem_singleton.mp hmem, htr]
          exact hkeys _ (lookupKey_mem hfr)
    · rintro rm cur ⟨hne, hch, hon⟩ _ _ hcl
      refine ⟨List.cons_ne_nil _ cur, ?_, ?_⟩
      · match cur, hne with
        | hd :: tl2, _ =>
          refine List.chain'_cons.mpr ⟨?_, hch⟩
          unfold stepRel
          show hd.pos = ((frontLeft d (hd :: tl2)).1 + (Dir.step d).1,
            (frontLeft d (hd :: tl2)).2 + (Dir.step d).2)
          have hfl2 : frontLeft d (hd :: tl2) =
              (hd.pos.1 - (Dir.step d).1, hd.pos.2 - (Dir.step d).2) := rfl
          rw [hfl2]
          exact Prod.ext (by simp) (by simp)
      · intro a ha
        rcases List.mem_cons.mp ha with rfl | hmem
        · exact hcl
        · exact hon a hmem
    · rintro rm cur ⟨hne, hch, hon⟩ _ _ hcr
      refine ⟨by simp, ?_, ?_⟩
      · rcases hgl : cur.getLast? with _ | last
        · exact absurd (List.getLast?_eq_none_iff.mp hgl) hne
        · refine List.chain'_append.mpr ⟨hch, List.chain'_singleton _, ?_⟩
          intro x hx y hy
          rw [hgl, Option.mem_def] at hx
          rw [List.head?_cons, Option.mem_def] at hy
          have hx2 : x = last := (Option.some_inj.mp hx).symm
          have hy2 : y = (⟨frontRight d cur, '_'⟩ : BoardTile) :=
            (Option.some_inj.mp hy).symm
          rw [hx2, hy2]
          unfold stepRel
          show frontRight d cur =
            (last.pos.1 + (Dir.step d).1, last.pos.2 + (Dir.step d).2)
          unfold frontRight
          rw [hgl]
      · intro a ha
        rcases List.mem_append.mp ha with hmem | hmem
        · exact hon a hmem
        · rw [List.mem_singleton.mp hmem]
          exact hcr
    · rintro cur ⟨_, hch, hon⟩ hlen _
      exact ⟨hlen, hch, hon⟩
    · intro a ha
      rw [List.mem_singleton.mp ha, WF_lookup_pos hwf hl]
      exact hc
  · rw [if_neg hc] at h
    exact Except.noConfusion h

theorem chain'_zip (d : Dir) :
    ∀ (pat : List BoardTile) (m : List Char), pat.length ≤ m.length →
      List.Chain' (stepRel d) pat →
      List.Chain' (stepRel d)
        (pat.zipWith (fun t c => (⟨t.pos, c⟩ : BoardTile)) m)
  | [], _, _, _ => by simp
  | [t], m, hlen, _ => by
    rcases m with _ | ⟨c, ms⟩
    · simp at hlen
    · simp
  | t1 :: t2 :: rest, m, hlen, hch => by
    rcases m with _ | ⟨c1, ms⟩
    · simp at hlen
    rcases ms with _ | ⟨c2, ms2⟩
    · simp at hlen
    show List.Chain' (stepRel d) ((⟨t1.pos, c1⟩ : BoardTile) ::
      (t2 :: rest).zipWith (fun t c => (⟨t.pos, c⟩ : BoardTile)) (c2 :: ms2))
    refine List.chain'_cons.mpr ⟨?_, ?_⟩
    · exact (List.chain'_cons.mp hch).1
    · exact chain'_zip d (t2 :: rest) (c2 :: ms2) (by simpa using hlen)
        (List.chain'_cons.mp hch).2

theorem zip_mem_pos :
    ∀ (pat : List BoardTile) (m : List Char) (a : BoardTile),
      a ∈ pat.zipWith (fun t c => (⟨t.pos, c⟩ : BoardTile)) m →
      ∃ t ∈ pat, a.pos = t.pos
  | [], _, a, h => by simp at h
  | _ :: _, [], a, h => by simp at h
  | t :: ps, c :: ms, a, h => by
    rcases List.mem_cons.mp h with rfl | hmem
    · exact ⟨t, List.mem_cons_self t ps, rfl⟩
    · obtain ⟨t2, ht2, he⟩ := zip_mem_pos ps ms a hmem
      exact ⟨t2, List.mem_cons_of_mem _ ht2, he⟩

theorem candidateFor_ok (bs : BoardState) (wordlist : List Char → Bool)
    (d : Dir) (pat : List BoardTile) (m : List Char) (hwf : WF bs)
    (hlen2 : 1 < pat.length) (hch : List.Chain' (stepRel d) pat)
    (hon : ∀ a ∈ pat, bs.contains a.pos = true)
    (hm : pat.length ≤ m.length) :
    ∃ r, candidateFor bs wordlist pat m = Except.ok r := by
  unfold candidateFor
  rw [if_pos hm]
  have hflen : (pat.zipWith (fun t c => (⟨t.pos, c⟩ : BoardTile)) m).length =
      pat.length := by
    rw [List.length_zipWith]
    omega
  have hmk : mkWord (pat.zipWith (fun t c => (⟨t.pos, c⟩ : BoardTile)) m) =
      Except.ok ⟨pat.zipWith (fun t c => (⟨t.pos, c⟩ : BoardTile)) m, d⟩ := by
    refine mkWord_of_chain d _ ?_ (chain'_zip d pat m hm hch)
    rw [hflen]
    exact hlen2
  have hok : ∀ t ∈ pat.zipWith (fun t c => (⟨t.pos, c⟩ : BoardTile)) m,
      ∃ r, bs.getIntWordForPos t d.orthogonal = Except.ok r := by
    intro t ht
    obtain ⟨t2, ht2, he⟩ := zip_mem_pos pat m t ht
    obtain ⟨front, back, _, _, heq⟩ := getIntWordForPos_spec bs hwf d.orthogonal t
      (by rw [he]; exact hon t2 ht2)
    exact ⟨_, heq⟩
  have hints := intWordsGo_filterMap bs d.orthogonal _ hok
  have hgw : bs.get_intersecting_words
      ⟨pat.zipWith (fun t c => (⟨t.pos, c⟩ : BoardTile)) m, d⟩ =
      Except.ok ((pat.zipWith (fun t c => (⟨t.pos, c⟩ : BoardTile)) m).filterMap
        (crossFor bs d.orthogonal)) := hints
  simp only [hmk, hgw]
  by_cases hany : ((pat.zipWith (fun t c => (⟨t.pos, c⟩ : BoardTile)) m).filterMap
      (crossFor bs d.orthogonal)).any (fun s => !(wordlist s)) = true
  · rw [if_pos hany]
    exact ⟨none, rfl⟩
  · rw [if_neg hany]
    exact ⟨some _, rfl⟩

theorem candidatesGo_ok (bs : BoardState) (wordlist : List Char → Bool)
    (d : Dir) (pat : List BoardTile) (hwf : WF bs)
    (hlen2 : 1 < pat.length) (hch : List.Chain' (stepRel d) pat)
    (hon : ∀ a ∈ pat, bs.contains a.pos = true) :
    ∀ ms, (∀ m ∈ ms, pat.length ≤ m.length) →
      ∃ ws, candidatesGo bs wordlist pat ms = Except.ok ws := by
  intro ms
  induction ms with
  | nil =>
    intro _
    exact ⟨[], rfl⟩
  | cons m rest ih =>
    intro hall
    obtain ⟨r, hr⟩ := candidateFor_ok bs wordlist d pat m hwf hlen2 hch hon
      (hall m (List.mem_cons_self m rest))
    obtain ⟨ws, hws⟩ := ih (fun m2 hm2 => hall m2 (List.mem_cons_of_mem _ hm2))
    rcases r with _ | w
    · exact ⟨ws, by simp only [candidatesGo, hr, hws]⟩
    · exact ⟨w :: ws, by simp only [candidatesGo, hr, hws]⟩

theorem patsGo_ok (bs : BoardState) (wordlist : List Char → Bool)
    (matcher : Option (List Char) → List Char → List (List Char))
    (gutter : List Char) (d : Dir) (hwf : WF bs)
    (hm : ∀ pl g m, m ∈ matcher (some pl) g → pl.length ≤ m.length) :
    ∀ pats, (∀ p ∈ pats, 1 < p.length ∧ List.Chain' (stepRel d) p ∧
        ∀ a ∈ p, bs.contains a.pos = true) →
      ∃ ws, patsGo bs wordlist matcher gutter pats = Except.ok ws := by
  intro pats
  induction pats with
  | nil =>
    intro _
    exact ⟨[], rfl⟩
  | cons pat rest ih =>
    intro hall
    obtain ⟨hlen2, hch, hon⟩ := hall pat (List.mem_cons_self pat rest)
    have hne : pat ≠ [] := by
      intro hnil
      rw [hnil] at hlen2
      simp at hlen2
    have hgp : get_pattern pat = some (letters pat) := by
      unfold get_pattern
      rw [if_neg (by simpa using hne)]
    have hmsl : ∀ m ∈ matcher (get_pattern pat) gutter, pat.length ≤ m.length := by
      intro m hmm
      rw [hgp] at hmm
      have := hm (letters pat) gutter m hmm
      rw [letters, List.length_map] at this
      exact this
    obtain ⟨ws, hws⟩ := candidatesGo_ok bs wordlist d pat hwf hlen2 hch hon
      (matcher (get_pattern pat) gutter) hmsl
    obtain ⟨rest2, hrest⟩ := ih (fun p hp => hall p (List.mem_cons_of_mem _ hp))
    exact ⟨ws ++ rest2, by simp only [patsGo, hws, hrest]⟩

theorem words_for_pos_ok (bs : BoardState) (p : Pos) (d : Dir)
    (wordlist : List Char → Bool) (gutter : List Char)
    (matcher : Option (List Char) → List Char → List (List Char))
    (hwf : WF bs) (hkeys : ∀ e ∈ bs.board, bs.contains e.1 = true)
    (hc : bs.contains p = true) (hk : hasKey bs.board p = true)
    (hm : ∀ pl g m, m ∈ matcher (some pl) g → pl.length ≤ m.length) :
    ∃ ws, words_for_pos bs p d wordlist gutter matcher = Except.ok ws := by
  unfold hasKey at hk
  rcases hl : lookupKey bs.board p with _ | v
  · rw [hl] at hk
    simp at hk
  · have hv : ∃ t0, v = some t0 := by
      have := hwf.2 _ (lookupKey_mem hl)
      rcases v with _ | t0
      · simp [entryOK] at this
      · exact ⟨t0, rfl⟩
    obtain ⟨t0, rfl⟩ := hv
    have hmp : bs.make_patterns p d gutter.length =
        Except.ok (makePatternsLevels bs t0 d gutter.length).flatten := by
      unfold BoardState.make_patterns
      rw [if_pos hc, hl]
    have hprops := make_patterns_props bs p d gutter.length t0 _ hwf hkeys hl hmp
    obtain ⟨ws, hws⟩ := patsGo_ok bs wordlist matcher gutter d hwf hm _ hprops
    exact ⟨ws, by unfold words_for_pos; rw [hmp]; exact hws⟩

theorem gbwGo_accum (bs : BoardState) (wordlist : List Char → Bool)
    (gutter : List Char)
    (matcher : Option (List Char) → List Char → List (List Char)) :
    ∀ coords : List Pos,
      (∀ p ∈ coords, hasKey bs.board p = true →
        (∃ ws, words_for_pos bs p Dir.across wordlist gutter matcher =
          Except.ok ws) ∧
        (∃ ws, words_for_pos bs p Dir.down wordlist gutter matcher =
          Except.ok ws)) →
      gbwGo bs wordlist gutter matcher coords =
        Except.ok (((coords.filter (fun p => hasKey bs.board p)).map
          (fun p => wfpValue bs p Dir.across wordlist gutter matcher ++
            wfpValue bs p Dir.down wordlist gutter matcher)).flatten) := by
  intro coords
  induction coords with
  | nil =>
    intro _
    rfl
  | cons p ps ih =>
    intro hall
    have hrest := ih (fun q hq => hall q (List.mem_cons_of_mem _ hq))
    by_cases hk : hasKey bs.board p = true
    · obtain ⟨⟨wa, hwa⟩, ⟨wd, hwd⟩⟩ := hall p (List.mem_cons_self p ps) hk
      have hva : wfpValue bs p Dir.across wordlist gutter matcher = wa := by
        unfold wfpValue
        rw [hwa]
      have hvd : wfpValue bs p Dir.down wordlist gutter matcher = wd := by
        unfold wfpValue
        rw [hwd]
      simp only [gbwGo, hk, if_true, hwa, hwd, hrest, List.filter_cons, hk,
        List.map_cons, List.flatten_cons, hva, hvd]
    · have hk2 : hasKey bs.board p = false := by
        rcases hb : hasKey bs.board p with _ | _
        · rfl
        · exact absurd hb hk
      simp only [gbwGo, hk2, if_false, hrest, List.filter_cons, hk2,
        Bool.false_eq_true, List.map_cons, List.flatten_cons]

theorem mem_anchorCoords (bs : BoardState) (p : Pos) :
    p ∈ anchorCoords bs ↔
      0 ≤ p.1 ∧ p.1 < (bs.width : Int) ∧ 0 ≤ p.2 ∧ p.2 < (bs.height : Int) := by
  unfold anchorCoords
  rw [List.mem_flatten]
  constructor
  · rintro ⟨l, hl, hpl⟩
    obtain ⟨i, hi, rfl⟩ := List.mem_map.mp hl
    obtain ⟨j, hj, rfl⟩ := List.mem_map.mp hpl
    have hi2 := List.mem_range.mp hi
    have hj2 := List.mem_range.mp hj
    have hci : Int.ofNat i = (i : Int) := rfl
    have hcj : Int.ofNat j = (j : Int) := rfl
    refine ⟨?_, ?_, ?_, ?_⟩ <;> simp only [hci, hcj] <;> omega
  · rintro ⟨h1, h2, h3, h4⟩
    refine ⟨(List.range bs.height).map (fun (j : Nat) =>
      ((Int.ofNat p.1.toNat, Int.ofNat j) : Pos)), ?_, ?_⟩
    · refine List.mem_map.mpr ⟨p.1.toNat, List.mem_range.mpr (by omega), rfl⟩
    · refine List.mem_map.mpr ⟨p.2.toNat, List.mem_range.mpr (by omega), ?_⟩
      have hp1 : Int.ofNat p.1.toNat = p.1 := by
        have : (p.1.toNat : Int) = p.1 := Int.toNat_of_nonneg h1
        exact this
      have hp2 : Int.ofNat p.2.toNat = p.2 := by
        have : (p.2.toNat : Int) = p.2 := Int.toNat_of_nonneg h3
        exact this
      rw [hp1, hp2]

theorem pairwise_le_getLast {α : Type} (key : α → Int) :
    ∀ l : List α, l.Pairwise (fun a b => key a ≤ key b) →
      ∀ v ∈ l, ∀ last, l.getLast? = some last → key v ≤ key last
  | [] => by
    intro _ v hv
    simp at hv
  | [x] => by
    intro _ v hv last hlast
    rw [List.mem_singleton.mp hv]
    obtain rfl : x = last := by
      simp only [List.getLast?_singleton] at hlast
      injection hlast
    exact le_refl _
  | x :: y :: rest => by
    intro hpw v hv last hlast
    rw [List.getLast?_cons_cons] at hlast
    rcases List.mem_cons.mp hv with rfl | hmem
    · have hlmem : last ∈ y :: rest := by
        obtain ⟨h2, heq⟩ := List.mem_getLast?_eq_getLast
          (show last ∈ (y :: rest).getLast? by rw [Option.mem_def]; exact hlast)
        rw [heq]
        exact List.getLast_mem h2
      exact (List.pairwise_cons.mp hpw).1 last hlmem
    · exact pairwise_le_getLast key (y :: rest) (List.pairwise_cons.mp hpw).2
        v hmem last hlast

/-- C3 (amended): `get_best_words` uses as anchors exactly the occupied
coordinates with `0 ≤ x < width` and `0 ≤ y < height` (the inclusive
boundary row and column admitted by the containment test are never
scanned), searches each anchor in both axes, and returns the accumulated
candidates sorted ascending by the external scorer, so the highest-scoring
candidate is the last element. -/
theorem claim_C3 (bs : BoardState) (gutter : List Char)
    (wordlist : List Char → Bool)
    (matcher : Option (List Char) → List Char → List (List Char))
    (score : Wrd → Int) (hwf : WF bs)
    (hkeys : ∀ e ∈ bs.board, bs.contains e.1 = true)
    (hm : ∀ pl g m, m ∈ matcher (some pl) g → pl.length ≤ m.length) :
    ∃ acc out,
      get_best_words bs gutter wordlist matcher score = Except.ok out ∧
      out = sortByKey score acc ∧
      List.Perm out acc ∧
      out.Pairwise (fun a b => score a ≤ score b) ∧
      (∀ v ∈ out, ∀ last, out.getLast? = some last → score v ≤ score last) ∧
      acc = ((strictAnchors bs).map
        (fun p => wfpValue bs p Dir.across wordlist gutter matcher ++
          wfpValue bs p Dir.down wordlist gutter matcher)).flatten ∧
      (∀ p ∈ strictAnchors bs,
        (∃ la, words_for_pos bs p Dir.across wordlist gutter matcher =
          Except.ok la) ∧
        (∃ ld, words_for_pos bs p Dir.down wordlist gutter matcher =
          Except.ok ld)) ∧
      (∀ p : Pos, p ∈ strictAnchors bs ↔
        (hasKey bs.board p = true ∧ 0 ≤ p.1 ∧ p.1 < (bs.width : Int) ∧
          0 ≤ p.2 ∧ p.2 < (bs.height : Int))) := by
  have hcont : ∀ p ∈ anchorCoords bs, bs.contains p = true := by
    intro p hp
    obtain ⟨h1, h2, h3, h4⟩ := (mem_anchorCoords bs p).mp hp
    rw [contains_iff]
    omega
  have hok : ∀ p ∈ anchorCoords bs, hasKey bs.board p = true →
      (∃ ws, words_for_pos bs p Dir.across wordlist gutter matcher =
        Except.ok ws) ∧
      (∃ ws, words_for_pos bs p Dir.down wordlist gutter matcher =
        Except.ok ws) := by
    intro p hp hk
    exact ⟨words_for_pos_ok bs p Dir.across wordlist gutter matcher hwf hkeys
        (hcont p hp) hk hm,
      words_for_pos_ok bs p Dir.down wordlist gutter matcher hwf hkeys
        (hcont p hp) hk hm⟩
  have hgbw := gbwGo_accum bs wordlist gutter matcher (anchorCoords bs) hok
  refine ⟨((strictAnchors bs).map
      (fun p => wfpValue bs p Dir.across wordlist gutter matcher ++
        wfpValue bs p Dir.down wordlist gutter matcher)).flatten, _,
    ?_, rfl, ?_, ?_, ?_, rfl, ?_, ?_⟩
  · unfold get_best_words
    rw [hgbw]
    rfl
  · exact sortByKey_perm score _
  · exact sortByKey_sorted score _
  · exact fun v hv last hlast =>
      pairwise_le_getLast score _ (sortByKey_sorted score _) v hv last hlast
  · intro p hp
    obtain ⟨hpa, hpk⟩ := List.mem_filter.mp hp
    exact hok p hpa hpk
  · intro p
    unfold strictAnchors
    rw [List.mem_filter, mem_anchorCoords]
    constructor
    · rintro ⟨⟨h1, h2, h3, h4⟩, hk⟩
      exact ⟨hk, h1, h2, h3, h4⟩
    · rintro ⟨hk, h1, h2, h3, h4⟩
      exact ⟨⟨h1, h2, h3, h4⟩, hk⟩

/-- Board with a tile on the inclusive boundary column (`x = width`). -/
def bsThreeC : BoardState := ⟨2, 2, [((2, 0), some ⟨(2, 0), 'a'⟩)]⟩

/-- Rack used in the C3 counterexample. -/
def cGutter : List Char := ['x', 'y']

/-- Lexicon accepting everything. -/
def cWordlist : List Char → Bool := fun _ => true

/-- Matcher filling the single generated pattern "_a" with "ba". -/
def cMatcher : Option (List Char) → List Char → List (List Char) :=
  fun pat _ => if pat = some ['_', 'a'] then [['b', 'a']] else []

/-- Constant scorer. -/
def cScore : Wrd → Int := fun _ => 0

/-- C3 counterexample: (2, 0) is on-board (inclusive bound) and holds a
tile, and searching it across yields a candidate, yet `get_best_words`
returns the empty list because its scan stops at `width - 1` and
`height - 1` — it does not use every on-board occupied coordinate as an
anchor. -/
theorem claim_C3_counterexample :
    bsThreeC.contains (2, 0) = true ∧
    hasKey bsThreeC.board (2, 0) = true ∧
    words_for_pos bsThreeC (2, 0) Dir.across cWordlist cGutter cMatcher =
      Except.ok [⟨[⟨(1, 0), 'b'⟩, ⟨(2, 0), 'a'⟩], Dir.across⟩] ∧
    get_best_words bsThreeC cGutter cWordlist cMatcher cScore =
      Except.ok [] := by
  exact ⟨by decide, by decide, by rfl, by rfl⟩

/-- Board used in the claim C3 witness. -/
def bsThreeW : BoardState := ⟨2, 2, [((0, 0), some ⟨(0, 0), 'a'⟩)]⟩

/-- Matcher returning no candidates, used in the claim C3 witness. -/
def wMatcher : Option (List Char) → List Char → List (List Char) := fun _ _ => []

theorem claim_C3_witness :
    WF bsThreeW ∧
    ∃ acc out,
      get_best_words bsThreeW ['x'] (fun _ => true) wMatcher (fun _ => 0) =
        Except.ok out ∧
      out = sortByKey (fun _ => 0) acc ∧
      List.Perm out acc ∧
      out.Pairwise (fun a b => (0 : Int) ≤ 0) ∧
      (∀ v ∈ out, ∀ last, out.getLast? = some last → (0 : Int) ≤ 0) ∧
      acc = ((strictAnchors bsThreeW).map
        (fun p => wfpValue bsThreeW p Dir.across (fun _ => true) ['x'] wMatcher ++
          wfpValue bsThreeW p Dir.down (fun _ => true) ['x'] wMatcher)).flatten ∧
      (∀ p ∈ strictAnchors bsThreeW,
        (∃ la, words_for_pos bsThreeW p Dir.across (fun _ => true) ['x'] wMatcher =
          Except.ok la) ∧
        (∃ ld, words_for_pos bsThreeW p Dir.down (fun _ => true) ['x'] wMatcher =
          Except.ok ld)) ∧
      (∀ p : Pos, p ∈ strictAnchors bsThreeW ↔
        (hasKey bsThreeW.board p = true ∧ 0 ≤ p.1 ∧ p.1 < (bsThreeW.width : Int) ∧
          0 ≤ p.2 ∧ p.2 < (bsThreeW.height : Int))) := by
  have hwf : WF bsThreeW := by
    constructor
    · simp [bsThreeW]
    · decide
  refine ⟨hwf, ?_⟩
  exact claim_C3 bsThreeW ['x'] (fun _ => true) wMatcher (fun _ => 0) hwf
    (by decide) (by intro pl g m hmm; simp [wMatcher] at hmm)
